import Mathlib

/-!
Verification of the Veritas-RAG artifact subsystem against its specification.

The Python source is shallowly embedded: strings are `String`/`List Char`
(Python `str` is a sequence of Unicode code points, as is `String.data`),
byte buffers are `List Nat` with every element `< 256`, machine integers are
`Nat`/`Int` with explicit `% 2 ^ w` where wrap-around matters, and fallible
operations return `Option`.  External libraries used by the source
(`zstandard`, `xxhash`, `rank_bm25`s scoring core, `unicodedata.normalize`)
are not part of the repository; where a claim depends on them they are
treated as parameters, with the properties the spec attributes to them as
explicit hypotheses.  `hashlib.sha256` is embedded by a full executable
SHA-256 implementation (FIPS 180-4), which is exactly what `hashlib`
computes.
-/

/-! ### Little-endian byte encoding (Python `struct`, `<` format) -/

/-- Little-endian byte encoding of `v` on `w` bytes, least significant first. -/
def leBytes : Nat → Nat → List Nat
  | 0, _ => []
  | w + 1, v => v % 256 :: leBytes w (v / 256)

/-- Reads a little-endian byte sequence back into a natural number. -/
def fromLE : List Nat → Nat
  | [] => 0
  | b :: r => b + 256 * fromLE r

/-- Big-endian byte encoding of `v` on `w` bytes (SHA-256 length field). -/
def beBytes (w v : Nat) : List Nat :=
  (leBytes w v).reverse

/-- Two's-complement encoding of a signed 32-bit value (`struct` format `i`). -/
def leSigned4 (x : Int) : List Nat :=
  leBytes 4 (x % (2 ^ 32 : Nat)).toNat

/-- Decodes 4 little-endian bytes as a signed 32-bit value. -/
def fromLESigned4 (bs : List Nat) : Int :=
  let u := fromLE bs
  if u < 2 ^ 31 then (u : Int) else (u : Int) - 2 ^ 32

/-! ### UTF-8 codec (Python `str.encode("utf-8")` / `bytes.decode("utf-8")`) -/

/-- UTF-8 encoding of a single Unicode scalar value. -/
def utf8EncodeChar (c : Char) : List Nat :=
  if c.toNat < 0x80 then [c.toNat]
  else if c.toNat < 0x800 then [0xC0 + c.toNat / 64, 0x80 + c.toNat % 64]
  else if c.toNat < 0x10000 then
    [0xE0 + c.toNat / 4096, 0x80 + c.toNat / 64 % 64, 0x80 + c.toNat % 64]
  else
    [0xF0 + c.toNat / 262144, 0x80 + c.toNat / 4096 % 64, 0x80 + c.toNat / 64 % 64,
     0x80 + c.toNat % 64]

/-- UTF-8 encoding of a string (Python `s.encode("utf-8")`). -/
def utf8Encode (s : String) : List Nat :=
  s.data.flatMap utf8EncodeChar

/-- Helper: is the byte a UTF-8 continuation byte. -/
def utf8Cont (b : Nat) : Bool := 0x80 ≤ b && b < 0xC0

/-- Decodes one UTF-8 scalar value from the front of a byte list; rejects
truncated sequences, bad continuation bytes, overlong encodings and
surrogates, as Python's strict `bytes.decode("utf-8")` does. -/
def utf8DecodeOne (bs : List Nat) : Option (Nat × List Nat) :=
  if bs.length = 0 then none
  else if bs.getD 0 0 < 0x80 then some (bs.getD 0 0, bs.drop 1)
  else if 0xC2 ≤ bs.getD 0 0 ∧ bs.getD 0 0 < 0xE0 then
    if 2 ≤ bs.length ∧ utf8Cont (bs.getD 1 0) then
      some ((bs.getD 0 0 - 0xC0) * 64 + (bs.getD 1 0 - 0x80), bs.drop 2)
    else none
  else if 0xE0 ≤ bs.getD 0 0 ∧ bs.getD 0 0 < 0xF0 then
    if 3 ≤ bs.length ∧ utf8Cont (bs.getD 1 0) ∧ utf8Cont (bs.getD 2 0) then
      if 0x800 ≤ (bs.getD 0 0 - 0xE0) * 4096 + (bs.getD 1 0 - 0x80) * 64 + (bs.getD 2 0 - 0x80) ∧
          ¬ (0xD800 ≤ (bs.getD 0 0 - 0xE0) * 4096 + (bs.getD 1 0 - 0x80) * 64 + (bs.getD 2 0 - 0x80) ∧
             (bs.getD 0 0 - 0xE0) * 4096 + (bs.getD 1 0 - 0x80) * 64 + (bs.getD 2 0 - 0x80) < 0xE000) then
        some ((bs.getD 0 0 - 0xE0) * 4096 + (bs.getD 1 0 - 0x80) * 64 + (bs.getD 2 0 - 0x80), bs.drop 3)
      else none
    else none
  else if 0xF0 ≤ bs.getD 0 0 ∧ bs.getD 0 0 < 0xF5 then
    if 4 ≤ bs.length ∧ utf8Cont (bs.getD 1 0) ∧ utf8Cont (bs.getD 2 0) ∧ utf8Cont (bs.getD 3 0) then
      if 0x10000 ≤ (bs.getD 0 0 - 0xF0) * 262144 + (bs.getD 1 0 - 0x80) * 4096 +
            (bs.getD 2 0 - 0x80) * 64 + (bs.getD 3 0 - 0x80) ∧
          (bs.getD 0 0 - 0xF0) * 262144 + (bs.getD 1 0 - 0x80) * 4096 +
            (bs.getD 2 0 - 0x80) * 64 + (bs.getD 3 0 - 0x80) < 0x110000 then
        some ((bs.getD 0 0 - 0xF0) * 262144 + (bs.getD 1 0 - 0x80) * 4096 +
          (bs.getD 2 0 - 0x80) * 64 + (bs.getD 3 0 - 0x80), bs.drop 4)
      else none
    else none
  else none

/-- Decoding loop: one unit of fuel per decoded character (each character
consumes at least one byte, so `bs.length` fuel always suffices). -/
def utf8DecodeLoop : Nat → List Nat → Option (List Char)
  | _, [] => some []
  | 0, _ :: _ => none
  | fuel + 1, b :: rest =>
    (utf8DecodeOne (b :: rest)).bind
      (fun nr => (utf8DecodeLoop fuel nr.2).map (fun cs => Char.ofNat nr.1 :: cs))

/-- Strict UTF-8 decoder on code-point lists. -/
def utf8DecodeChars (bs : List Nat) : Option (List Char) :=
  utf8DecodeLoop bs.length bs

/-- UTF-8 decoding to a string (Python `b.decode("utf-8")`). -/
def utf8Decode (bs : List Nat) : Option String :=
  (utf8DecodeChars bs).map String.mk

/-! ### SHA-256 (FIPS 180-4, the function `hashlib.sha256` computes) -/

/-- Wrap-around addition modulo 2 ^ 32. -/
def add32 (a b : Nat) : Nat := (a + b) % 4294967296

/-- Right rotation of a 32-bit word by `k` bits. -/
def rotr32 (k x : Nat) : Nat := x / 2 ^ k + x % 2 ^ k * 2 ^ (32 - k)

/-- Bitwise complement of a 32-bit word. -/
def not32 (x : Nat) : Nat := 4294967295 - x % 4294967296

/-- SHA-256 round constants. -/
def sha256K : List Nat :=
  [1116352408, 1899447441, 3049323471, 3921009573, 961987163, 1508970993,
   2453635748, 2870763221, 3624381080, 310598401, 607225278, 1426881987,
   1925078388, 2162078206, 2614888103, 3248222580, 3835390401, 4022224774,
   264347078, 604807628, 770255983, 1249150122, 1555081692, 1996064986,
   2554220882, 2821834349, 2952996808, 3210313671, 3336571891, 3584528711,
   113926993, 338241895, 666307205, 773529912, 1294757372, 1396182291,
   1695183700, 1986661051, 2177026350, 2456956037, 2730485921, 2820302411,
   3259730800, 3345764771, 3516065817, 3600352804, 4094571909, 275423344,
   430227734, 506948616, 659060556, 883997877, 958139571, 1322822218,
   1537002063, 1747873779, 1955562222, 2024104815, 2227730452, 2361852424,
   2428436474, 2756734187, 3204031479, 3329325298]

/-- Working state of the SHA-256 compression function. -/
structure Sha256State where
  a : Nat
  b : Nat
  c : Nat
  d : Nat
  e : Nat
  f : Nat
  g : Nat
  h : Nat

/-- SHA-256 initial hash value. -/
def sha256Init : Sha256State :=
  ⟨1779033703, 3144134277, 1013904242, 2773480762, 1359893119, 2600822924,
   528734635, 1541459225⟩

/-- Pads a message to a multiple of 64 bytes with 0x80, zeros and the
big-endian 64-bit bit length. -/
def sha256Pad (msg : List Nat) : List Nat :=
  let zeros := (64 + 56 - (msg.length + 1) % 64) % 64
  msg ++ [0x80] ++ List.replicate zeros 0 ++ beBytes 8 (8 * msg.length)

/-- Groups a byte list into big-endian 32-bit words. -/
def bytesToWordsBE : List Nat → List Nat
  | b0 :: b1 :: b2 :: b3 :: r => (((b0 * 256 + b1) * 256 + b2) * 256 + b3) :: bytesToWordsBE r
  | _ => []

/-- Extends the 16 block words by one scheduled word. -/
def sha256NextWord (ws : List Nat) : Nat :=
  let g := fun (i : Nat) => ws.getD (ws.length - i) 0
  let s0 := (rotr32 7 (g 15)) ^^^ (rotr32 18 (g 15)) ^^^ (g 15 / 2 ^ 3)
  let s1 := (rotr32 17 (g 2)) ^^^ (rotr32 19 (g 2)) ^^^ (g 2 / 2 ^ 10)
  (g 16 + s0 + g 7 + s1) % 4294967296

/-- Appends `n` scheduled words to the message schedule. -/
def sha256Schedule (ws : List Nat) : Nat → List Nat
  | 0 => ws
  | n + 1 => sha256Schedule (ws ++ [sha256NextWord ws]) n

/-- One SHA-256 round for schedule word `w` and constant `k`. -/
def sha256Round (st : Sha256State) (wk : Nat × Nat) : Sha256State :=
  let s1 := (rotr32 6 st.e) ^^^ (rotr32 11 st.e) ^^^ (rotr32 25 st.e)
  let ch := (st.e &&& st.f) ^^^ (not32 st.e &&& st.g)
  let t1 := (st.h + s1 + ch + wk.2 + wk.1) % 4294967296
  let s0 := (rotr32 2 st.a) ^^^ (rotr32 13 st.a) ^^^ (rotr32 22 st.a)
  let maj := (st.a &&& st.b) ^^^ (st.a &&& st.c) ^^^ (st.b &&& st.c)
  let t2 := (s0 + maj) % 4294967296
  ⟨add32 t1 t2, st.a, st.b, st.c, add32 st.d t1, st.e, st.f, st.g⟩

/-- Processes one 64-byte block. -/
def sha256Block (st : Sha256State) (block : List Nat) : Sha256State :=
  let ws := sha256Schedule (bytesToWordsBE block) 48
  let r := (ws.zip sha256K).foldl sha256Round st
  ⟨add32 st.a r.a, add32 st.b r.b, add32 st.c r.c, add32 st.d r.d,
   add32 st.e r.e, add32 st.f r.f, add32 st.g r.g, add32 st.h r.h⟩

/-- Splits a padded message into 64-byte blocks; the fuel only bounds the
recursion depth (one unit per block, so `l.length` always suffices). -/
def sha256BlocksGo : Nat → List Nat → List (List Nat)
  | 0, _ => []
  | _, [] => []
  | fuel + 1, b :: r => ((b :: r).take 64) :: sha256BlocksGo fuel ((b :: r).drop 64)

/-- Splits a padded message into 64-byte blocks. -/
def sha256Blocks (l : List Nat) : List (List Nat) :=
  sha256BlocksGo l.length l

/-- SHA-256 digest of a byte string, as 32 bytes. -/
def sha256Bytes (msg : List Nat) : List Nat :=
  let fin := (sha256Blocks (sha256Pad msg)).foldl sha256Block sha256Init
  beBytes 4 fin.a ++ beBytes 4 fin.b ++ beBytes 4 fin.c ++ beBytes 4 fin.d ++
  beBytes 4 fin.e ++ beBytes 4 fin.f ++ beBytes 4 fin.g ++ beBytes 4 fin.h

/-! ### Lowercase hex digests (Python `hexdigest`) -/

/-- The sixteen lowercase hex digits. -/
def hexDigits : List Char :=
  "0123456789abcdef".data

/-- Hex digit character for a value below 16. -/
def hexChar (n : Nat) : Char := hexDigits.getD n 'x'

/-- Lowercase hex rendering of a byte string. -/
def hexOfBytes (bs : List Nat) : List Char :=
  bs.flatMap (fun b => [hexChar (b / 16), hexChar (b % 16)])

/-- Python `hashlib.sha256(s.encode("utf-8")).hexdigest()`. -/
def sha256hexStr (s : String) : String :=
  String.mk (hexOfBytes (sha256Bytes (utf8Encode s)))

/-- Python `hashlib.sha256(raw_bytes).hexdigest()` for raw byte input. -/
def sha256hexBytes (bs : List Nat) : String :=
  String.mk (hexOfBytes (sha256Bytes bs))

/-- Python string slicing `s[:n]` (strings are code-point sequences). -/
def pyTake (s : String) (n : Nat) : String := String.mk (s.data.take n)

/-! ### Deterministic identifiers (`veritas_rag/core/ids.py`) -/

/-- `generate_chunk_id(doc_uid, offset_start, offset_end, chunk_text)`:
hash the chunk text, concatenate `doc_uid`, the decimal offsets and the text
hash, hash again and keep the first 16 hex characters. -/
def generate_chunk_id (doc_uid : String) (offset_start offset_end : Nat)
    (chunk_text : String) : String :=
  let chunk_text_hash := sha256hexStr chunk_text
  let combined := doc_uid ++ toString offset_start ++ toString offset_end ++ chunk_text_hash
  pyTake (sha256hexStr combined) 16

/-- Chunk-id formula as worded by the spec:
`sha256(doc_uid ‖ decimal(offset_start) ‖ decimal(offset_end) ‖ hex(sha256(chunk_text)))[:16]`,
stated independently for comparison with the source definition. -/
def chunkIdSpecFormula (doc_uid : String) (offset_start offset_end : Nat)
    (chunk_text : String) : String :=
  pyTake (sha256hexStr (doc_uid ++ toString offset_start ++ toString offset_end ++
    sha256hexStr chunk_text)) 16

/-! ### Whitespace and word counting (Python `str.isspace`, `str.split`) -/

/-- Python `str.isspace` character class (ASCII whitespace, the C1
whitespace controls, and the Unicode space separators). -/
def pyIsSpace (c : Char) : Bool :=
  c ∈ [' ', '\t', '\n', '\r', '\x0b', '\x0c', '\x1c', '\x1d', '\x1e', '\x1f',
       '\x85', ' ', ' ', ' ', ' ', ' ', ' ',
       ' ', ' ', ' ', ' ', ' ', ' ', ' ',
       ' ', ' ', ' ', ' ', '　']

/-- Counts maximal non-whitespace runs; the flag records whether the previous
character was part of a word. -/
def cwA : List Char → Bool → Nat
  | [], _ => 0
  | c :: rest, inW =>
    if pyIsSpace c then cwA rest false
    else (if inW then 0 else 1) + cwA rest true

/-- Python `len(text.split())`: the number of maximal non-whitespace runs. -/
def pySplitLen (l : List Char) : Nat := cwA l false

/-! ### Chunker (`veritas_rag/ingestion/chunker.py`) -/

/-- Inner loop `while pos < len(text) and text[pos].isspace(): pos += 1`
of `FixedSizeChunker._find_chunk_end`. -/
def skipSpacesFwd (t : List Char) (pos : Nat) : Nat :=
  if pos < t.length then
    if pyIsSpace (t.getD pos 'x') then skipSpacesFwd t (pos + 1) else pos
  else pos
termination_by t.length - pos

/-- Inner loop `while pos < len(text) and not text[pos].isspace(): pos += 1`
of `FixedSizeChunker._find_chunk_end`. -/
def skipWordFwd (t : List Char) (pos : Nat) : Nat :=
  if pos < t.length then
    if ¬ pyIsSpace (t.getD pos 'x') then skipWordFwd t (pos + 1) else pos
  else pos
termination_by t.length - pos

/-- Outer loop of `_find_chunk_end`: advance over up to `n` words starting
at `pos` (each iteration skips whitespace, then one word). -/
def advanceWords (t : List Char) (pos : Nat) : Nat → Nat
  | 0 => pos
  | n + 1 =>
    if pos < t.length then advanceWords t (skipWordFwd t (skipSpacesFwd t pos)) n
    else pos

/-- `FixedSizeChunker._find_chunk_end(text, start_pos, target_words)`. -/
def findChunkEnd (t : List Char) (startPos target : Nat) : Nat :=
  if pySplitLen (t.drop startPos) ≤ target then t.length
  else advanceWords t startPos target

/-- Inner loop `while pos > 0 and text[pos - 1].isspace(): pos -= 1`
of `FixedSizeChunker._find_chunk_start`. -/
def skipSpacesBack (t : List Char) : Nat → Nat
  | 0 => 0
  | p + 1 => if pyIsSpace (t.getD p 'x') then skipSpacesBack t p else p + 1

/-- Inner loop `while pos > 0 and not text[pos - 1].isspace(): pos -= 1`
of `FixedSizeChunker._find_chunk_start`. -/
def skipWordBack (t : List Char) : Nat → Nat
  | 0 => 0
  | p + 1 => if ¬ pyIsSpace (t.getD p ' ') then skipWordBack t p else p + 1

/-- Outer loop of `_find_chunk_start`: step back over up to `k` words from
`pos` (each iteration skips whitespace backwards, then one word backwards). -/
def backWords (t : List Char) (pos : Nat) : Nat → Nat
  | 0 => pos
  | k + 1 =>
    if 0 < pos then backWords t (skipWordBack t (skipSpacesBack t pos)) k
    else pos

/-- `FixedSizeChunker._find_chunk_start(text, end_pos, target_words)`. -/
def findChunkStart (t : List Char) (endPos target : Nat) : Nat :=
  if pySplitLen (t.take endPos) ≤ target then 0
  else backWords t endPos target

/-- Minimal record of an emitted chunk: offsets, exact text slice and index
(`chunk_id` is derived in `mkEmittedChunk` below). -/
structure EmittedChunk where
  chunk_id : String
  offset_start : Nat
  offset_end : Nat
  text : List Char
  chunk_index : Nat
deriving Repr, DecidableEq

/-- Main loop of `FixedSizeChunker.chunk_document`, with explicit fuel: one
unit of fuel per iteration of the Python `while current_pos < len(...)`
loop, `none` when the fuel runs out before the loop exits. -/
def chunkLoop (doc_uid : String) (t : List Char) (csize ov : Nat) :
    Nat → Nat → Nat → Option (List EmittedChunk)
  | 0, _, _ => none
  | fuel + 1, pos, cidx =>
    if pos < t.length then
      let endPos := findChunkEnd t pos csize
      if endPos ≤ pos then some []
      else
        let chunkText := (t.take endPos).drop pos
        if chunkText = [] then some []
        else
          let chunk : EmittedChunk :=
            { chunk_id := generate_chunk_id doc_uid pos endPos (String.mk chunkText)
              offset_start := pos
              offset_end := endPos
              text := chunkText
              chunk_index := cidx }
          if t.length ≤ endPos then some [chunk]
          else
            let nextPos := findChunkStart t endPos ov
            (chunkLoop doc_uid t csize ov fuel nextPos (cidx + 1)).map (chunk :: ·)
    else some []

/-- `FixedSizeChunker.chunk_document` on a document with normalized text `t`.
The Python loop carries no fuel; fuel `t.length + 1` is granted here and the
termination theorem shows it is never exhausted. -/
def chunk_document (doc_uid : String) (t : List Char) (csize ov : Nat) :
    Option (List EmittedChunk) :=
  if pySplitLen t = 0 then some []
  else chunkLoop doc_uid t csize ov (t.length + 1) 0 0

/-! ### Normalizer (`veritas_rag/ingestion/normalizer.py`) -/

/-- Character class of the regex `[ \t]`. -/
def isSpTab (c : Char) : Bool := c = ' ' || c = '\t'

/-- Python `re.sub(r"[ \t]+", " ", s)`: each maximal run of spaces and tabs
becomes a single space. -/
def collapseSpaceTab : List Char → List Char
  | [] => []
  | c :: rest =>
    if isSpTab c then ' ' :: collapseSpaceTab (rest.dropWhile isSpTab)
    else c :: collapseSpaceTab rest
termination_by l => l.length
decreasing_by
  · exact Nat.lt_succ_of_le (List.dropWhile_sublist isSpTab).length_le
  · simp

/-- Python `s.replace("\r\n", "\n")` (left-to-right, non-overlapping). -/
def replaceCRLF : List Char → List Char
  | '\r' :: '\n' :: rest => '\n' :: replaceCRLF rest
  | c :: rest => c :: replaceCRLF rest
  | [] => []

/-- Python `s.replace("\r", "\n")`. -/
def replaceCR : List Char → List Char :=
  List.map (fun c => if c = '\r' then '\n' else c)

/-- Python `s.strip()`: drop leading and trailing whitespace. -/
def pyStrip (l : List Char) : List Char :=
  ((l.dropWhile pyIsSpace).reverse.dropWhile pyIsSpace).reverse

/-- `normalize_text` from `normalizer.py`, parameterised by the Unicode NFKC
transform (`unicodedata.normalize("NFKC", ·)` is library code outside this
repository; the idempotence theorem takes its relevant properties as
hypotheses): NFKC, collapse space/tab runs, normalize newlines, strip. -/
def normalize_text (nfkc : List Char → List Char) (text : List Char) : List Char :=
  pyStrip (replaceCR (replaceCRLF (collapseSpaceTab (nfkc text))))

/-! ### Chunk store binary records (`veritas_rag/storage/chunk_store.py`) -/

/-- Fixed widths of `INDEX_RECORD_FORMAT = "<32s32s32sQIIBQQIii"`: three
32-byte strings, `Q` 8-byte unsigned, `I` 4-byte unsigned, `B` 1 byte,
two `Q`, one `I`, two signed `i`. -/
def INDEX_RECORD_SIZE : Nat := 32 + 32 + 32 + 8 + 4 + 4 + 1 + 8 + 8 + 4 + 4 + 4

/-- Logical content of one index record, as passed to `_write_index_record`. -/
structure IndexRecordFields where
  chunk_id : String
  doc_uid : String
  doc_id : String
  store_offset : Nat
  length : Nat
  checksum : Nat
  is_active : Bool
  offset_start : Nat
  offset_end : Nat
  chunk_index : Nat
  page_start : Int
  page_end : Int
deriving Repr, DecidableEq

/-- `s.encode("utf-8")[:32].ljust(32, b"\0")`: UTF-8 bytes truncated to 32
and right-padded with NUL. -/
def pad32 (s : String) : List Nat :=
  let b := (utf8Encode s).take 32
  b ++ List.replicate (32 - b.length) 0

/-- Range checks `struct.pack` performs for the numeric fields of
`<32s32s32sQIIBQQIii` (`B` receives `1 if is_active else 0`, always valid). -/
def packable (r : IndexRecordFields) : Prop :=
  r.store_offset < 2 ^ 64 ∧ r.length < 2 ^ 32 ∧ r.checksum < 2 ^ 32 ∧
  r.offset_start < 2 ^ 64 ∧ r.offset_end < 2 ^ 64 ∧ r.chunk_index < 2 ^ 32 ∧
  -(2 ^ 31) ≤ r.page_start ∧ r.page_start < 2 ^ 31 ∧
  -(2 ^ 31) ≤ r.page_end ∧ r.page_end < 2 ^ 31

instance (r : IndexRecordFields) : Decidable (packable r) := by
  unfold packable; infer_instance

/-- `struct.pack(INDEX_RECORD_FORMAT, ...)` as called by
`_write_index_record`: little-endian, no padding; `none` when a numeric
field is out of range (where `struct.error` would be raised). -/
def packRecord (r : IndexRecordFields) : Option (List Nat) :=
  if packable r then
    some (pad32 r.chunk_id ++ pad32 r.doc_uid ++ pad32 r.doc_id ++
      leBytes 8 r.store_offset ++ leBytes 4 r.length ++ leBytes 4 r.checksum ++
      [if r.is_active then 1 else 0] ++
      leBytes 8 r.offset_start ++ leBytes 8 r.offset_end ++ leBytes 4 r.chunk_index ++
      leSigned4 r.page_start ++ leSigned4 r.page_end)
  else none

/-- Python `bytes.rstrip(b"\0")`. -/
def rstripNul (bs : List Nat) : List Nat :=
  ((bs.reverse.dropWhile (· = 0))).reverse

/-- Decodes a stored 32-byte id field: `record_bytes.rstrip(b"\0").decode("utf-8")`. -/
def decodeIdField (bs : List Nat) : Option String :=
  utf8Decode (rstripNul bs)

/-- `struct.unpack(INDEX_RECORD_FORMAT, record_bytes)` followed by the field
post-processing in `load_index` (NUL-strip and UTF-8 decode of the id
fields, `bool(is_active_byte)`); `none` on a UTF-8 decode error or if the
record is not exactly 141 bytes. -/
def unpackRecord (bs : List Nat) : Option IndexRecordFields :=
  if bs.length = INDEX_RECORD_SIZE then
    match decodeIdField (bs.take 32),
          decodeIdField ((bs.drop 32).take 32),
          decodeIdField ((bs.drop 64).take 32) with
    | some cid, some duid, some did =>
      some { chunk_id := cid
             doc_uid := duid
             doc_id := did
             store_offset := fromLE ((bs.drop 96).take 8)
             length := fromLE ((bs.drop 104).take 4)
             checksum := fromLE ((bs.drop 108).take 4)
             is_active := bs.getD 112 0 ≠ 0
             offset_start := fromLE ((bs.drop 113).take 8)
             offset_end := fromLE ((bs.drop 121).take 8)
             chunk_index := fromLE ((bs.drop 129).take 4)
             page_start := fromLESigned4 ((bs.drop 133).take 4)
             page_end := fromLESigned4 ((bs.drop 137).take 4) }
    | _, _, _ => none
  else none

/-! ### Chunk store state (`ChunkStore`) -/

/-- Python dict lookup on an insertion-ordered association list. -/
def dictGet {α : Type} (m : List (String × α)) (k : String) : Option α :=
  (m.find? (fun kv => kv.1 = k)).map (·.2)

/-- Python dict assignment: overwrite in place or append. -/
def dictSet {α : Type} (m : List (String × α)) (k : String) (v : α) : List (String × α) :=
  match m with
  | [] => [(k, v)]
  | kv :: rest => if kv.1 = k then (k, v) :: rest else kv :: dictSet rest k v

/-- In-memory index record (the dict values of `ChunkStore.index`); absent
page numbers are `none` where the packed record stores `-1`. -/
structure MemRecord where
  doc_uid : String
  doc_id : String
  store_offset : Nat
  length : Nat
  checksum : Nat
  is_active : Bool
  offset_start : Nat
  offset_end : Nat
  chunk_index : Nat
  page_start : Option Int
  page_end : Option Int
deriving Repr, DecidableEq

/-- Fields of a `Chunk` consumed by `ChunkStore.write_chunk`. -/
structure Chunk where
  chunk_id : String
  doc_uid : String
  doc_id : String
  text : String
  offset_start : Nat
  offset_end : Nat
  chunk_index : Nat
  page_start : Option Int
  page_end : Option Int
deriving Repr, DecidableEq

/-- On-disk and in-memory state of a `ChunkStore`: the bytes of
`chunks.bin`, the bytes of `chunks.idx`, and the in-memory maps. -/
structure StoreState where
  binFile : List Nat
  idxFile : List Nat
  index : List (String × MemRecord)
  doc_uid_to_chunks : List (String × List String)
  doc_id_to_source_path : List (String × String)
deriving Repr, DecidableEq

/-- `ChunkStore.write_chunk`: append the payload to `chunks.bin` (noting the
prior size as `store_offset`), append a packed index record, update the
in-memory maps; `none` where `struct.pack` would raise. -/
def write_chunk (st : StoreState) (chunk : Chunk) (compressed_data : List Nat)
    (checksum : Nat) : Option StoreState :=
  let store_offset := st.binFile.length
  let length := compressed_data.length
  let fields : IndexRecordFields :=
    { chunk_id := chunk.chunk_id
      doc_uid := chunk.doc_uid
      doc_id := chunk.doc_id
      store_offset := store_offset
      length := length
      checksum := checksum
      is_active := true
      offset_start := chunk.offset_start
      offset_end := chunk.offset_end
      chunk_index := chunk.chunk_index
      page_start := chunk.page_start.getD (-1)
      page_end := chunk.page_end.getD (-1) }
  (packRecord fields).map (fun recBytes =>
    { binFile := st.binFile ++ compressed_data
      idxFile := st.idxFile ++ recBytes
      index := dictSet st.index chunk.chunk_id
        { doc_uid := chunk.doc_uid
          doc_id := chunk.doc_id
          store_offset := store_offset
          length := length
          checksum := checksum
          is_active := true
          offset_start := chunk.offset_start
          offset_end := chunk.offset_end
          chunk_index := chunk.chunk_index
          page_start := chunk.page_start
          page_end := chunk.page_end }
      doc_uid_to_chunks :=
        match dictGet st.doc_uid_to_chunks chunk.doc_uid with
        | none => dictSet st.doc_uid_to_chunks chunk.doc_uid [chunk.chunk_id]
        | some l => dictSet st.doc_uid_to_chunks chunk.doc_uid (l ++ [chunk.chunk_id])
      doc_id_to_source_path := st.doc_id_to_source_path })

/-- Result of `ChunkStore.read_chunk`: `absent` models the `return None`
paths, the error constructors model the exceptions the read can raise. -/
inductive ReadChunkResult where
  | absent
  | decompressError
  | decodeError
  | checksumError
  | ok (chunk : Chunk) (source_path : String)
deriving Repr, DecidableEq

/-- `ChunkStore.read_chunk`: look up the in-memory index, reject inactive
records, read `length` bytes at `store_offset` of `chunks.bin`, decompress
(`zstdD`, the `zstandard` decompressor), UTF-8 decode, verify the stored
checksum against `xxh32` of the decompressed bytes. -/
def read_chunk (zstdD : List Nat → Option (List Nat)) (xxh32 : List Nat → Nat)
    (st : StoreState) (chunk_id : String) : ReadChunkResult :=
  match dictGet st.index chunk_id with
  | none => .absent
  | some record =>
    if ¬ record.is_active then .absent
    else
      let compressed_data := (st.binFile.drop record.store_offset).take record.length
      match zstdD compressed_data with
      | none => .decompressError
      | some decompressed_data =>
        match utf8Decode decompressed_data with
        | none => .decodeError
        | some text =>
          if xxh32 decompressed_data ≠ record.checksum then .checksumError
          else
            .ok
              { chunk_id := chunk_id
                doc_uid := record.doc_uid
                doc_id := record.doc_id
                text := text
                offset_start := record.offset_start
                offset_end := record.offset_end
                chunk_index := record.chunk_index
                page_start := record.page_start
                page_end := record.page_end }
              ((dictGet st.doc_id_to_source_path record.doc_id).getD "")

/-- `ChunkStore.tombstone_chunk`: no-op for unknown ids, otherwise append a
copy of the record with `is_active = 0` and flip the in-memory flag. -/
def tombstone_chunk (st : StoreState) (chunk_id : String) : Option StoreState :=
  match dictGet st.index chunk_id with
  | none => some st
  | some record =>
    let fields : IndexRecordFields :=
      { chunk_id := chunk_id
        doc_uid := record.doc_uid
        doc_id := record.doc_id
        store_offset := record.store_offset
        length := record.length
        checksum := record.checksum
        is_active := false
        offset_start := record.offset_start
        offset_end := record.offset_end
        chunk_index := record.chunk_index
        page_start := record.page_start.getD (-1)
        page_end := record.page_end.getD (-1) }
    (packRecord fields).map (fun recBytes =>
      { st with
        idxFile := st.idxFile ++ recBytes
        index := dictSet st.index chunk_id { record with is_active := false } })

/-- Value of one `docs.meta` entry (`doc_id` / `source_path` keys may be
missing). -/
structure DocMetaInfo where
  doc_id : Option String
  source_path : Option String
deriving Repr, DecidableEq

/-- The `doc_id -> source_path` map `load_index` builds from `docs.meta`. -/
def docSrcFromMeta (meta : List (String × DocMetaInfo)) : List (String × String) :=
  meta.foldl
    (fun acc kv =>
      match kv.2.doc_id, kv.2.source_path with
      | some d, some s => dictSet acc d s
      | _, _ => acc) []

/-- Reads `chunks.idx` as consecutive 141-byte records, dropping a trailing
partial record as the `len(record_bytes) < INDEX_RECORD_SIZE` break does. -/
def idxRecordsOfGo : Nat → List Nat → List (List Nat)
  | 0, _ => []
  | fuel + 1, bs =>
    if bs.length < INDEX_RECORD_SIZE then []
    else bs.take INDEX_RECORD_SIZE :: idxRecordsOfGo fuel (bs.drop INDEX_RECORD_SIZE)

/-- Reads `chunks.idx` as consecutive 141-byte records (fuel formulation of
the read loop; one unit per record, so `bs.length + 1` always suffices). -/
def idxRecordsOf (bs : List Nat) : List (List Nat) :=
  idxRecordsOfGo (bs.length + 1) bs

/-- In-memory maps produced by `ChunkStore.load_index`. -/
structure LoadedStore where
  index : List (String × MemRecord)
  doc_uid_to_chunks : List (String × List String)
  doc_id_to_source_path : List (String × String)
deriving Repr, DecidableEq

/-- Streaming loop of `load_index`: unpack each record and apply
last-record-wins; `-1` page fields become `none`; `none` when a record
fails to decode (where Python would raise). -/
def loadRecords (recs : List (List Nat)) (acc : LoadedStore) : Option LoadedStore :=
  match recs with
  | [] => some acc
  | r :: rest =>
    match unpackRecord r with
    | none => none
    | some f =>
      loadRecords rest
        { index := dictSet acc.index f.chunk_id
            { doc_uid := f.doc_uid
              doc_id := f.doc_id
              store_offset := f.store_offset
              length := f.length
              checksum := f.checksum
              is_active := f.is_active
              offset_start := f.offset_start
              offset_end := f.offset_end
              chunk_index := f.chunk_index
              page_start := if f.page_start = -1 then none else some f.page_start
              page_end := if f.page_end = -1 then none else some f.page_end }
          doc_uid_to_chunks :=
            match dictGet acc.doc_uid_to_chunks f.doc_uid with
            | none => dictSet acc.doc_uid_to_chunks f.doc_uid [f.chunk_id]
            | some l =>
              if f.chunk_id ∈ l then acc.doc_uid_to_chunks
              else dictSet acc.doc_uid_to_chunks f.doc_uid (l ++ [f.chunk_id])
          doc_id_to_source_path := acc.doc_id_to_source_path }

/-- `ChunkStore.load_index`: rebuild the in-memory maps from `docs.meta`
and the bytes of `chunks.idx`. -/
def load_index (meta : List (String × DocMetaInfo)) (idxBytes : List Nat) :
    Option LoadedStore :=
  loadRecords (idxRecordsOf idxBytes)
    { index := []
      doc_uid_to_chunks := []
      doc_id_to_source_path := docSrcFromMeta meta }

/-- The store state after closing and reopening an artifact: the files are
unchanged, the in-memory maps are whatever `load_index` rebuilt. -/
def reloadedState (st : StoreState) (meta : List (String × DocMetaInfo)) :
    Option StoreState :=
  (load_index meta st.idxFile).map (fun l =>
    { binFile := st.binFile
      idxFile := st.idxFile
      index := l.index
      doc_uid_to_chunks := l.doc_uid_to_chunks
      doc_id_to_source_path := l.doc_id_to_source_path })

/-! ### Manifest (`veritas_rag/storage/manifest.py`) -/

/-- Required artifact files checked by `validate_manifest`. -/
def requiredArtifactFiles : List String :=
  ["chunks.bin", "chunks.idx", "bm25_index.pkl", "docs.meta"]

/-- `ArtifactManifestManager.compute_file_checksum`: SHA-256 over the bytes
of the file (the 4096-byte read loop feeds the hasher the same stream). -/
def compute_file_checksum (contents : List Nat) : String :=
  sha256hexBytes contents

/-- `ArtifactManifestManager.validate_manifest` over a directory modelled as
a partial map from filename to file bytes: every required file must exist,
and every file in the manifest checksum map must exist and re-hash to the
stored digest. -/
def validate_manifest (fs : String → Option (List Nat))
    (checksums : List (String × String)) : Bool :=
  requiredArtifactFiles.all (fun f => (fs f).isSome) &&
  checksums.all (fun kv =>
    match fs kv.1 with
    | none => false
    | some contents => compute_file_checksum contents == kv.2)

/-! ### File-operation traces of the metadata writers -/

/-- Filesystem operations relevant to atomic-replace behaviour. -/
inductive FileOp where
  | openWrite (path : String)
  | writeData (data : String)
  | rename (src dst : String)
deriving Repr, DecidableEq

/-- Trace of `ChunkStore.save_docs_meta(docs_meta)`: open the target path
itself in write mode and `json.dump` into it (`jsonText` stands for the
serialised dictionary). -/
def save_docs_meta (docs_meta_path : String) (jsonText : String) : List FileOp :=
  [.openWrite docs_meta_path, .writeData jsonText]

/-- Trace of `ArtifactManifestManager.save_manifest(manifest, file_path)`:
open the target path itself in write mode and `json.dump` into it. -/
def save_manifest (file_path : String) (jsonText : String) : List FileOp :=
  [.openWrite file_path, .writeData jsonText]

/-- Atomic replacement discipline the spec mandates: all writing happens on
a temporary sibling (the target itself is never opened for writing) and the
temporary is renamed over the target. -/
def usesTempRename (ops : List FileOp) (target : String) : Prop :=
  (∀ p, FileOp.openWrite p ∈ ops → p ≠ target) ∧
  ∃ tmp, tmp ≠ target ∧ FileOp.rename tmp target ∈ ops

/-! ### Tokenizer (`veritas_rag/search/tokenizer.py`) -/

/-- Character class of the regex `\w` (word characters: letters, digits and
underscore; Latin core of the Unicode class). -/
def isWordChar (c : Char) : Bool := c.isAlphanum || c = '_'

/-- Default stopword set of `BM25Tokenizer`. -/
def defaultStopwords : List String :=
  ["the", "a", "an", "and", "or", "but", "in", "on", "at", "to", "for", "of",
   "with", "by", "is", "are", "was", "were", "be", "been", "being", "have",
   "has", "had", "do", "does", "did", "will", "would", "should", "could",
   "may", "might", "must", "can"]

/-- Scanner behind `findallWordRuns`; the fuel only bounds the recursion
depth (one unit per consumed character, so `l.length` always suffices). -/
def findallWordRunsGo : Nat → List Char → List (List Char)
  | 0, _ => []
  | _, [] => []
  | fuel + 1, c :: rest =>
    if isWordChar c then
      (c :: rest.takeWhile isWordChar) :: findallWordRunsGo fuel (rest.dropWhile isWordChar)
    else findallWordRunsGo fuel rest

/-- Python `re.findall(r"\w+", s)`: maximal runs of word characters. -/
def findallWordRuns (l : List Char) : List (List Char) :=
  findallWordRunsGo l.length l

/-- `BM25Tokenizer.tokenize`: lowercase, extract `\w+` runs, optionally
filter stopwords (`Char.toLower` covers the Latin letters that
`str.lower` maps). -/
def tokenize (use_stopwords : Bool) (stopwords : List String) (text : String) :
    List String :=
  let tokens := (findallWordRuns (text.data.map Char.toLower)).map String.mk
  if use_stopwords then tokens.filter (fun t => ¬ stopwords.contains t) else tokens

/-- `BM25Tokenizer.tokenize_query` (same tokenisation as documents). -/
def tokenize_query (use_stopwords : Bool) (stopwords : List String) (q : String) :
    List String :=
  tokenize use_stopwords stopwords q

/-! ### BM25 index and search (`veritas_rag/search/bm25_index.py`) -/

/-- Built state of a `BM25Index`: the corpus-order chunk id list and the
scoring function of the external `rank_bm25.BM25Okapi` object
(`get_scores`), which maps query tokens to one score per corpus position. -/
structure BM25Model where
  chunk_ids : List String
  use_stopwords : Bool
  stopwords : List String
  getScores : List String → List ℚ

/-- Python `sorted(range(len(scores)), key=lambda i: scores[i],
reverse=True)`: `sorted` is a stable sort, embedded with the stable
`List.mergeSort` under the key-descending comparison. -/
def pySortScoresDesc (scores : List ℚ) : List Nat :=
  (List.range scores.length).mergeSort
    (fun i j => decide (scores.getD j 0 ≤ scores.getD i 0))

/-- `BM25Index.search`: tokenize the query, return `[]` if no tokens
remain, otherwise score the corpus and return the top-k positions as
`(chunk_id, score)` pairs. -/
def bm25_search (m : BM25Model) (query : String) (top_k : Nat) :
    List (String × ℚ) :=
  let query_tokens := tokenize_query m.use_stopwords m.stopwords query
  if query_tokens = [] then []
  else
    let scores := m.getScores query_tokens
    let top_indices := (pySortScoresDesc scores).take top_k
    top_indices.map (fun idx => (m.chunk_ids.getD idx "", scores.getD idx 0))

/-- `RetrievalPipeline.retrieve_ids`: a direct call to `BM25Index.search`. -/
def retrieve_ids (m : BM25Model) (query : String) (top_k : Nat) :
    List (String × ℚ) :=
  bm25_search m query top_k

/-! ### Query processor (`veritas_rag/search/query.py`) -/

/-- Python `str.find` (index of the first occurrence, `-1` if absent). -/
def pyFindAux (hay needle : List Char) (i : Nat) : Option Nat :=
  if needle.isPrefixOf hay then some i
  else
    match hay with
    | [] => none
    | _ :: t => pyFindAux t needle (i + 1)

/-- Python `hay.find(needle)` as an integer. -/
def pyFind (hay needle : List Char) : Int :=
  match pyFindAux hay needle 0 with
  | some i => (i : Int)
  | none => -1

/-- `QueryProcessor._generate_snippet`: up to `max_length` characters
centred on the earliest case-insensitive occurrence of a matched term,
with ellipses when not flush with the chunk ends. -/
def generate_snippet (text : List Char) (matched_terms : List String)
    (max_length : Nat := 200) : List Char :=
  if matched_terms = [] ∨ text = [] then
    if text = [] then [] else text.take max_length
  else
    let text_lower := text.map Char.toLower
    let first_pos := matched_terms.foldl
      (fun fp term =>
        let pos := pyFind text_lower (term.data.map Char.toLower)
        if pos ≠ -1 ∧ pos < fp then pos else fp)
      (text.length : Int)
    if first_pos = (text.length : Int) then text.take max_length
    else
      let start := max 0 (first_pos - (max_length / 2 : Nat))
      let stop := min (text.length : Int) (first_pos + (max_length / 2 : Nat))
      let snippet := (text.take stop.toNat).drop start.toNat
      let snippet := if 0 < start then '.' :: '.' :: '.' :: snippet else snippet
      if stop < (text.length : Int) then snippet ++ ['.', '.', '.'] else snippet

/-- Source reference fields carried by a `RetrievalResult`. -/
structure SourceRef where
  source_path : String
  offset_start : Nat
  offset_end : Nat
  page_start : Option Int
  page_end : Option Int
deriving Repr, DecidableEq

/-- One result of `QueryProcessor.process_query`. -/
structure RetrievalResult where
  chunk_id : String
  score : ℚ
  matched_terms : List String
  snippet : List Char
  source_ref : SourceRef
deriving Repr, DecidableEq

/-- Loop body of `process_query` over the `(chunk_id, score)` hits: fetch
the chunk when a store is attached, compute sorted matched terms, snippet
and source reference; a read error propagates (`none`). -/
def buildResults (zstdD : List Nat → Option (List Nat)) (xxh32 : List Nat → Nat)
    (use_stopwords : Bool) (stopwords : List String)
    (store : Option StoreState) (query_tokens : List String) :
    List (String × ℚ) → Option (List RetrievalResult)
  | [] => some []
  | (chunk_id, score) :: rest =>
    let base : RetrievalResult :=
      { chunk_id := chunk_id
        score := score
        matched_terms := []
        snippet := []
        source_ref :=
          { source_path := ""
            offset_start := 0
            offset_end := 0
            page_start := none
            page_end := none } }
    match store with
    | none =>
      (buildResults zstdD xxh32 use_stopwords stopwords store query_tokens rest).map
        (base :: ·)
    | some st =>
      match read_chunk zstdD xxh32 st chunk_id with
      | .absent =>
        (buildResults zstdD xxh32 use_stopwords stopwords store query_tokens rest).map
          (base :: ·)
      | .ok chunk source_path =>
        let chunk_tokens := tokenize use_stopwords stopwords chunk.text
        let matched := ((query_tokens.filter (chunk_tokens.contains ·)).dedup).mergeSort
          (fun s t => decide (s ≤ t))
        let result : RetrievalResult :=
          { chunk_id := chunk_id
            score := score
            matched_terms := matched
            snippet := generate_snippet chunk.text.data matched
            source_ref :=
              { source_path := source_path
                offset_start := chunk.offset_start
                offset_end := chunk.offset_end
                page_start := chunk.page_start
                page_end := chunk.page_end } }
        (buildResults zstdD xxh32 use_stopwords stopwords store query_tokens rest).map
          (result :: ·)
      | _ => none

/-- `QueryProcessor.process_query` (the implementation behind
`RetrievalPipeline.retrieve`): search, then build one `RetrievalResult` per
hit — every `(chunk_id, score)` returned by the index search yields a
result, whether or not the chunk is still active in the store. -/
def process_query (zstdD : List Nat → Option (List Nat)) (xxh32 : List Nat → Nat)
    (m : BM25Model) (store : Option StoreState) (query : String) (top_k : Nat) :
    Option (List RetrievalResult) :=
  let results := bm25_search m query top_k
  let query_tokens := tokenize_query m.use_stopwords m.stopwords query
  buildResults zstdD xxh32 m.use_stopwords m.stopwords store query_tokens results

/-! ### Auxiliary notions for the normalizer and chunker proofs -/

/-- Spacing shape of `re.sub(r"[ \t]+", " ", s)` output: no tabs and no two
adjacent spaces. -/
def goodSpacing (l : List Char) : Prop :=
  '\t' ∉ l ∧ l.Chain' (fun a b => ¬ (a = ' ' ∧ b = ' '))

/-- Word-boundary flag after scanning a list: `true` when the scan ends
inside a word (used to reason about word counts of concatenations). -/
def wEnd : List Char → Bool → Bool
  | [], f => f
  | c :: r, _ => wEnd r (if pyIsSpace c then false else true)

/-- List form of the forward whitespace skip. -/
def dropSpacesL (l : List Char) : List Char := l.dropWhile pyIsSpace

/-- List form of the forward word skip. -/
def dropWordL (l : List Char) : List Char := l.dropWhile (fun c => ! pyIsSpace c)

/-- One word-stepping iteration: skip whitespace, then one word. -/
def stepFwdL (l : List Char) : List Char := dropWordL (dropSpacesL l)

/-- Iterated word stepping with the `pos < len` / `pos > 0` loop guard. -/
def stepsL : Nat → List Char → List Char
  | 0, l => l
  | n + 1, l => if l = [] then l else stepsL n (stepFwdL l)

/-! ### Basic lemmas about the byte encodings -/

theorem leBytes_length (w v : Nat) : (leBytes w v).length = w := by
  induction w generalizing v with
  | zero => rfl
  | succ w ih => simp [leBytes, ih]

theorem leBytes_lt (w v : Nat) : ∀ b ∈ leBytes w v, b < 256 := by
  induction w generalizing v with
  | zero => simp [leBytes]
  | succ w ih =>
    intro b hb
    simp only [leBytes, List.mem_cons] at hb
    rcases hb with h | h
    · subst h; exact Nat.mod_lt _ (by omega)
    · exact ih _ _ h

theorem beBytes_length (w v : Nat) : (beBytes w v).length = w := by
  simp [beBytes, leBytes_length]

theorem beBytes_lt (w v : Nat) : ∀ b ∈ beBytes w v, b < 256 := by
  intro b hb
  exact leBytes_lt w v b (List.mem_reverse.mp hb)

theorem sha256Bytes_length (msg : List Nat) : (sha256Bytes msg).length = 32 := by
  simp [sha256Bytes, beBytes_length]

theorem sha256Bytes_lt (msg : List Nat) : ∀ b ∈ sha256Bytes msg, b < 256 := by
  intro b hb
  simp only [sha256Bytes, List.mem_append] at hb
  rcases hb with ((((((h | h) | h) | h) | h) | h) | h) | h <;> exact beBytes_lt _ _ b h

theorem hexOfBytes_length (bs : List Nat) : (hexOfBytes bs).length = 2 * bs.length := by
  induction bs with
  | nil => rfl
  | cons b r ih => simp [hexOfBytes, List.flatMap_cons] at ih ⊢; omega

theorem hexChar_mem_hexDigits (n : Nat) (h : n < 16) : hexChar n ∈ hexDigits := by
  have hlen : n < hexDigits.length := by
    have h16 : hexDigits.length = 16 := rfl
    omega
  rw [hexChar, List.getD_eq_getElem _ _ hlen]
  exact List.getElem_mem hlen

theorem hexOfBytes_mem (bs : List Nat) (hb : ∀ b ∈ bs, b < 256) :
    ∀ c ∈ hexOfBytes bs, c ∈ hexDigits := by
  intro c hc
  simp only [hexOfBytes, List.mem_flatMap] at hc
  obtain ⟨b, hbmem, hcmem⟩ := hc
  have h256 := hb b hbmem
  simp only [List.mem_cons, List.not_mem_nil, or_false] at hcmem
  rcases hcmem with h | h <;> subst h
  · exact hexChar_mem_hexDigits _ (by omega)
  · exact hexChar_mem_hexDigits _ (Nat.mod_lt _ (by omega))

theorem sha256hexStr_data (s : String) :
    (sha256hexStr s).data = hexOfBytes (sha256Bytes (utf8Encode s)) := rfl

theorem sha256hexStr_length (s : String) : (sha256hexStr s).data.length = 64 := by
  rw [sha256hexStr_data, hexOfBytes_length, sha256Bytes_length]

/-- Claim C4: `generate_chunk_id` equals the first 16 characters of the
lowercase hex SHA-256 digest of
`doc_uid ‖ decimal(offset_start) ‖ decimal(offset_end) ‖ hex(sha256(chunk_text))`;
it is deterministic (a pure function of its four arguments, so equal inputs
give equal outputs definitionally), and its output is a 16-character string
drawn from the lowercase hex digits. -/
theorem generate_chunk_id_spec (doc_uid : String) (offset_start offset_end : Nat)
    (chunk_text : String) :
    generate_chunk_id doc_uid offset_start offset_end chunk_text =
      chunkIdSpecFormula doc_uid offset_start offset_end chunk_text ∧
    (generate_chunk_id doc_uid offset_start offset_end chunk_text).data.length = 16 ∧
    ∀ c ∈ (generate_chunk_id doc_uid offset_start offset_end chunk_text).data,
      c ∈ hexDigits := by
  refine ⟨rfl, ?_, ?_⟩
  · show (pyTake _ 16).data.length = 16
    rw [pyTake]
    show (List.take 16 _).length = 16
    rw [List.length_take]
    have := sha256hexStr_length (doc_uid ++ toString offset_start ++
      toString offset_end ++ sha256hexStr chunk_text)
    omega
  · intro c hc
    have hc' : c ∈ (sha256hexStr (doc_uid ++ toString offset_start ++
        toString offset_end ++ sha256hexStr chunk_text)).data :=
      List.mem_of_mem_take hc
    rw [sha256hexStr_data] at hc'
    exact hexOfBytes_mem _ (sha256Bytes_lt _) c hc'

/-- Claim C5 (divergence witness): the metadata writers do not follow the
temp-file-plus-rename discipline. Both `save_docs_meta` and `save_manifest`
open the target path itself for writing, and their traces contain no rename
at all, so the targets are not replaced atomically. -/
theorem save_docs_meta_and_manifest_not_atomic (target jsonText : String) :
    FileOp.openWrite target ∈ save_docs_meta target jsonText ∧
    FileOp.openWrite target ∈ save_manifest target jsonText ∧
    (∀ s d, FileOp.rename s d ∉ save_docs_meta target jsonText) ∧
    (∀ s d, FileOp.rename s d ∉ save_manifest target jsonText) ∧
    ¬ usesTempRename (save_docs_meta target jsonText) target ∧
    ¬ usesTempRename (save_manifest target jsonText) target := by
  refine ⟨by simp [save_docs_meta], by simp [save_manifest], ?_, ?_, ?_, ?_⟩
  · intro s d h; simp [save_docs_meta] at h
  · intro s d h; simp [save_manifest] at h
  · rintro ⟨hopen, tmp, -, hmem⟩
    simp [save_docs_meta] at hmem
  · rintro ⟨hopen, tmp, -, hmem⟩
    simp [save_manifest] at hmem

/-- Claim C10: a query that tokenizes to no tokens makes `BM25Index.search`
(and with it `RetrievalPipeline.retrieve_ids`) return the empty list for
every built index and every `top_k`. -/
theorem bm25_search_empty_tokens (m : BM25Model) (q : String) (top_k : Nat)
    (h : tokenize_query m.use_stopwords m.stopwords q = []) :
    bm25_search m q top_k = [] ∧ retrieve_ids m q top_k = [] := by
  have : bm25_search m q top_k = [] := by
    unfold bm25_search
    rw [h]
    simp
  exact ⟨this, this⟩

/-- Witness for C10 at a concrete punctuation-and-whitespace query. -/
theorem bm25_search_empty_tokens_witness :
    bm25_search ⟨["c1", "c2"], false, [], fun _ => [1, 2]⟩ " .,;!? " 10 = [] ∧
    retrieve_ids ⟨["c1", "c2"], false, [], fun _ => [1, 2]⟩ " .,;!? " 10 = [] :=
  bm25_search_empty_tokens ⟨["c1", "c2"], false, [], fun _ => [1, 2]⟩ " .,;!? " 10
    (by decide)

/-- Claim C7: strict manifest validation returns `True` exactly when every
required artifact file exists and every file in the checksum map exists and
re-hashes to the stored SHA-256 digest; consequently any listed file whose
bytes hash differently from the stored digest makes validation return
`False` (so strict load fails). -/
theorem validate_manifest_spec (fs : String → Option (List Nat))
    (checksums : List (String × String)) :
    (validate_manifest fs checksums = true ↔
      ((∀ f ∈ requiredArtifactFiles, ∃ b, fs f = some b) ∧
       ∀ p ∈ checksums, ∃ b, fs p.1 = some b ∧ compute_file_checksum b = p.2)) ∧
    (∀ f d b, (f, d) ∈ checksums → fs f = some b → compute_file_checksum b ≠ d →
      validate_manifest fs checksums = false) := by
  constructor
  · unfold validate_manifest
    rw [Bool.and_eq_true, List.all_eq_true, List.all_eq_true]
    constructor
    · rintro ⟨hreq, hsum⟩
      constructor
      · intro f hf
        have := hreq f hf
        exact Option.isSome_iff_exists.mp this
      · intro p hp
        have := hsum p hp
        revert this
        cases hfs : fs p.1 with
        | none => intro h; cases h
        | some contents =>
          intro h
          exact ⟨contents, rfl, by simpa using h⟩
    · rintro ⟨hreq, hsum⟩
      constructor
      · intro f hf
        obtain ⟨b, hb⟩ := hreq f hf
        simp [hb]
      · intro p hp
        obtain ⟨b, hb, heq⟩ := hsum p hp
        rw [hb]
        simpa using heq
  · intro f d b hmem hfs hne
    unfold validate_manifest
    rw [Bool.and_eq_false_iff]
    right
    rw [List.all_eq_false]
    refine ⟨(f, d), hmem, ?_⟩
    rw [hfs]
    simpa using hne

/-- Witness for C7: a directory whose four required files are all empty;
the manifest lists `chunks.bin` with a wrong digest, and strict validation
rejects it. -/
theorem validate_manifest_spec_witness :
    validate_manifest
      (fun f => if f ∈ requiredArtifactFiles then some [] else none)
      [("chunks.bin", "bad")] = false :=
  (validate_manifest_spec
      (fun f => if f ∈ requiredArtifactFiles then some [] else none)
      [("chunks.bin", "bad")]).2
    "chunks.bin" "bad" [] (by decide) (by decide) (by decide)

/-! ### Lemmas for the BM25 search ordering (claim C9) -/

theorem pair_sublist_range {a b n : Nat} (hab : a < b) (hbn : b < n) :
    List.Sublist [a, b] (List.range n) := by
  induction n with
  | zero => omega
  | succ m ih =>
    rw [List.range_succ]
    by_cases hbm : b < m
    · exact (ih hbm).trans (List.sublist_append_left _ _)
    · have hb : b = m := by omega
      subst hb
      have ha : List.Sublist [a] (List.range b) :=
        List.singleton_sublist.mpr (List.mem_range.mpr hab)
      simpa using ha.append (List.Sublist.refl [b])

theorem nodup_no_reversed_pair {α : Type} {l : List α} {a b : α}
    (hnd : l.Nodup) (h1 : List.Sublist [a, b] l) (h2 : List.Sublist [b, a] l) :
    a = b := by
  induction l with
  | nil => cases h1
  | cons x r ih =>
    rw [List.nodup_cons] at hnd
    cases h1 with
    | cons _ h1' =>
      cases h2 with
      | cons _ h2' => exact ih hnd.2 h1' h2'
      | cons₂ _ h2' =>
        exfalso
        exact hnd.1 (h1'.mem (by simp))
    | cons₂ _ h1' =>
      cases h2 with
      | cons _ h2' =>
        exfalso
        exact hnd.1 (h2'.mem (by simp))
      | cons₂ _ h2' => rfl

theorem pySortScoresDesc_pairwise (scores : List ℚ) :
    (pySortScoresDesc scores).Pairwise
      (fun i j => scores.getD j 0 < scores.getD i 0 ∨
        (scores.getD i 0 = scores.getD j 0 ∧ i < j)) := by
  set n := scores.length with hn
  set le : Nat → Nat → Bool :=
    fun i j => decide (scores.getD j 0 ≤ scores.getD i 0) with hle
  have htrans : ∀ (a b c : Nat), le a b → le b c → le a c := by
    intro a b c hab hbc
    simp only [hle, decide_eq_true_eq] at *
    exact le_trans hbc hab
  have htotal : ∀ (a b : Nat), le a b || le b a := by
    intro a b
    simp only [hle, Bool.or_eq_true, decide_eq_true_eq]
    exact le_total _ _
  have hperm : ((List.range n).mergeSort le).Perm (List.range n) :=
    List.mergeSort_perm _ _
  have hnd : ((List.range n).mergeSort le).Nodup :=
    hperm.symm.nodup (List.nodup_range n)
  have hsorted : ((List.range n).mergeSort le).Pairwise (fun a b => le a b) := by
    simpa using List.sorted_mergeSort htrans htotal (List.range n)
  rw [pySortScoresDesc, ← hn, ← hle]
  rw [List.pairwise_iff_forall_sublist]
  intro a b hsub
  have hab_le : le a b := List.pairwise_iff_forall_sublist.mp hsorted hsub
  have hab_ne : a ≠ b := List.pairwise_iff_forall_sublist.mp hnd hsub
  simp only [hle, decide_eq_true_eq] at hab_le
  rcases lt_or_eq_of_le hab_le with hlt | heq
  · exact Or.inl hlt
  · refine Or.inr ⟨heq.symm, ?_⟩
    rcases Nat.lt_trichotomy a b with h | h | h
    · exact h
    · exact absurd h hab_ne
    · exfalso
      have hbn : a < n := List.mem_range.mp (List.mem_mergeSort.mp (hsub.mem (by simp)))
      have hrev : List.Sublist [b, a] ((List.range n).mergeSort le) :=
        List.sublist_mergeSort htrans htotal
          (List.pairwise_pair.mpr (by
            simp only [hle, decide_eq_true_eq]
            exact le_of_eq heq.symm))
          (pair_sublist_range h hbn)
      exact hab_ne (nodup_no_reversed_pair hnd hsub hrev)

/-- Claim C9: for every built index and query, `BM25Index.search` returns at
most `top_k` pairs whose scores are non-increasing, and the returned corpus
positions are ordered so that equal scores are resolved by the lower corpus
position first (Python's `sorted` is stable over `range(len(scores))`). -/
theorem bm25_search_ordering (m : BM25Model) (q : String) (top_k : Nat) :
    (bm25_search m q top_k).length ≤ top_k ∧
    (bm25_search m q top_k).Pairwise (fun x y => y.2 ≤ x.2) ∧
    ((pySortScoresDesc (m.getScores (tokenize_query m.use_stopwords m.stopwords q))).take
        top_k).Pairwise
      (fun i j =>
        (m.getScores (tokenize_query m.use_stopwords m.stopwords q)).getD j 0 <
          (m.getScores (tokenize_query m.use_stopwords m.stopwords q)).getD i 0 ∨
        ((m.getScores (tokenize_query m.use_stopwords m.stopwords q)).getD i 0 =
          (m.getScores (tokenize_query m.use_stopwords m.stopwords q)).getD j 0 ∧
          i < j)) := by
  set toks := tokenize_query m.use_stopwords m.stopwords q with htoks
  set scores := m.getScores toks with hscores
  have hpw : ((pySortScoresDesc scores).take top_k).Pairwise
      (fun i j => scores.getD j 0 < scores.getD i 0 ∨
        (scores.getD i 0 = scores.getD j 0 ∧ i < j)) :=
    (pySortScoresDesc_pairwise scores).sublist (List.take_sublist _ _) |>.imp (fun h => h)
  refine ⟨?_, ?_, hpw⟩
  · unfold bm25_search
    rw [← htoks]
    by_cases hq : toks = []
    · simp [hq]
    · rw [if_neg hq, ← hscores, List.length_map]
      exact List.length_take_le _ _
  · unfold bm25_search
    rw [← htoks]
    by_cases hq : toks = []
    · simp [hq]
    · rw [if_neg hq, ← hscores, List.pairwise_map]
      exact hpw.imp (by
        rintro a b (h | ⟨h, -⟩)
        · exact le_of_lt h
        · exact le_of_eq h.symm)

/-! ### Round-trip lemmas for the binary record format (claim C6) -/

theorem fromLE_leBytes (w v : Nat) (h : v < 256 ^ w) : fromLE (leBytes w v) = v := by
  induction w generalizing v with
  | zero =>
    simp [leBytes, fromLE]
    omega
  | succ w ih =>
    have hdiv : v / 256 < 256 ^ w := by
      rw [Nat.div_lt_iff_lt_mul (by omega)]
      calc v < 256 ^ (w + 1) := h
        _ = 256 ^ w * 256 := by ring
    simp only [leBytes, fromLE, ih _ hdiv]
    omega

theorem fromLESigned4_leSigned4 (x : Int)
    (hlo : -(2 ^ 31) ≤ x) (hhi : x < 2 ^ 31) :
    fromLESigned4 (leSigned4 x) = x := by
  unfold leSigned4 fromLESigned4
  have h1 : (0:Int) ≤ x % ((2 ^ 32 : Nat) : Int) := Int.emod_nonneg x (by positivity)
  have h2 : x % ((2 ^ 32 : Nat) : Int) < ((2 ^ 32 : Nat) : Int) :=
    Int.emod_lt_of_pos x (by positivity)
  have hb : (x % ((2 ^ 32 : Nat) : Int)).toNat < 256 ^ 4 := by
    push_cast at h1 h2 ⊢
    omega
  rw [fromLE_leBytes 4 _ hb]
  push_cast at h1 h2 ⊢
  omega


theorem char_toNat_bounds (c : Char) :
    c.toNat < 0x110000 ∧ ¬ (0xD800 ≤ c.toNat ∧ c.toNat < 0xE000) := by
  rcases c.valid with h | ⟨h1, h2⟩
  · have hn : c.val.toNat < (0xd800 : UInt32).toNat := h
    have he : (0xd800 : UInt32).toNat = 0xd800 := rfl
    rw [he] at hn
    exact ⟨by unfold Char.toNat; omega, by unfold Char.toNat; omega⟩
  · have ha : (0xdfff : UInt32).toNat < c.val.toNat := h1
    have hb : c.val.toNat < (0x110000 : UInt32).toNat := h2
    have he1 : (0xdfff : UInt32).toNat = 0xdfff := rfl
    have he2 : (0x110000 : UInt32).toNat = 0x110000 := rfl
    rw [he1] at ha
    rw [he2] at hb
    exact ⟨by unfold Char.toNat; omega, by unfold Char.toNat; omega⟩

theorem utf8DecodeOne_encodeChar (c : Char) (rest : List Nat) :
    utf8DecodeOne (utf8EncodeChar c ++ rest) = some (c.toNat, rest) := by
  obtain ⟨hmax, hsur⟩ := char_toNat_bounds c
  by_cases h1 : c.toNat < 0x80
  · have henc : utf8EncodeChar c = [c.toNat] := by
      unfold utf8EncodeChar
      rw [if_pos h1]
    rw [henc, List.cons_append, List.nil_append]
    unfold utf8DecodeOne
    simp only [List.length_cons, List.getD_cons_zero, List.drop_succ_cons, List.drop_zero]
    rw [if_neg (by omega), if_pos h1]
  · by_cases h2 : c.toNat < 0x800
    · have henc : utf8EncodeChar c = [0xC0 + c.toNat / 64, 0x80 + c.toNat % 64] := by
        unfold utf8EncodeChar
        rw [if_neg h1, if_pos h2]
      rw [henc, List.cons_append, List.cons_append, List.nil_append]
      unfold utf8DecodeOne
      simp only [List.length_cons, List.getD_cons_zero, List.getD_cons_succ,
        List.drop_succ_cons, List.drop_zero, utf8Cont]
      rw [if_neg (by omega), if_neg (by omega), if_pos (by constructor <;> omega),
        if_pos (by simp only [utf8Cont, Bool.and_eq_true, decide_eq_true_eq]; omega)]
      have hv : (0xC0 + c.toNat / 64 - 0xC0) * 64 + (0x80 + c.toNat % 64 - 0x80) =
          c.toNat := by omega
      rw [hv]
    · by_cases h3 : c.toNat < 0x10000
      · have henc : utf8EncodeChar c =
            [0xE0 + c.toNat / 4096, 0x80 + c.toNat / 64 % 64, 0x80 + c.toNat % 64] := by
          unfold utf8EncodeChar
          rw [if_neg h1, if_neg h2, if_pos h3]
        rw [henc, List.cons_append, List.cons_append, List.cons_append, List.nil_append]
        unfold utf8DecodeOne
        simp only [List.length_cons, List.getD_cons_zero, List.getD_cons_succ,
          List.drop_succ_cons, List.drop_zero, utf8Cont]
        rw [if_neg (by omega), if_neg (by omega), if_neg (by omega),
          if_pos (by constructor <;> omega),
          if_pos (by simp only [utf8Cont, Bool.and_eq_true, decide_eq_true_eq]; omega)]
        have hv : (0xE0 + c.toNat / 4096 - 0xE0) * 4096 +
            (0x80 + c.toNat / 64 % 64 - 0x80) * 64 + (0x80 + c.toNat % 64 - 0x80) =
            c.toNat := by omega
        rw [if_pos (by rw [hv]; exact ⟨by omega, hsur⟩), hv]
      · have henc : utf8EncodeChar c =
            [0xF0 + c.toNat / 262144, 0x80 + c.toNat / 4096 % 64,
             0x80 + c.toNat / 64 % 64, 0x80 + c.toNat % 64] := by
          unfold utf8EncodeChar
          rw [if_neg h1, if_neg h2, if_neg h3]
        rw [henc, List.cons_append, List.cons_append, List.cons_append,
          List.cons_append, List.nil_append]
        unfold utf8DecodeOne
        simp only [List.length_cons, List.getD_cons_zero, List.getD_cons_succ,
          List.drop_succ_cons, List.drop_zero, utf8Cont]
        rw [if_neg (by omega), if_neg (by omega), if_neg (by omega),
          if_neg (by omega), if_pos (by constructor <;> omega),
          if_pos (by simp only [utf8Cont, Bool.and_eq_true, decide_eq_true_eq]; omega)]
        have hv : (0xF0 + c.toNat / 262144 - 0xF0) * 262144 +
            (0x80 + c.toNat / 4096 % 64 - 0x80) * 4096 +
            (0x80 + c.toNat / 64 % 64 - 0x80) * 64 + (0x80 + c.toNat % 64 - 0x80) =
            c.toNat := by omega
        rw [if_pos (by rw [hv]; exact ⟨by omega, by omega⟩), hv]

theorem utf8EncodeChar_ne_nil (c : Char) : utf8EncodeChar c ≠ [] := by
  unfold utf8EncodeChar
  by_cases h1 : c.toNat < 0x80
  · rw [if_pos h1]; simp
  · by_cases h2 : c.toNat < 0x800
    · rw [if_neg h1, if_pos h2]; simp
    · by_cases h3 : c.toNat < 0x10000
      · rw [if_neg h1, if_neg h2, if_pos h3]; simp
      · rw [if_neg h1, if_neg h2, if_neg h3]; simp

theorem utf8DecodeLoop_flatMap (cs : List Char) (fuel : Nat)
    (hf : (cs.flatMap utf8EncodeChar).length ≤ fuel) :
    utf8DecodeLoop fuel (cs.flatMap utf8EncodeChar) = some cs := by
  induction cs generalizing fuel with
  | nil =>
    cases fuel <;> rfl
  | cons c r ih =>
    rw [List.flatMap_cons] at hf ⊢
    obtain ⟨b, bt, hb⟩ : ∃ b bt, utf8EncodeChar c = b :: bt := by
      cases henc : utf8EncodeChar c with
      | nil => exact absurd henc (utf8EncodeChar_ne_nil c)
      | cons b bt => exact ⟨b, bt, rfl⟩
    have hlen : 1 ≤ (utf8EncodeChar c).length := by rw [hb]; simp
    rw [List.length_append] at hf
    obtain ⟨f, hfeq⟩ : ∃ f, fuel = f + 1 := by
      refine ⟨fuel - 1, ?_⟩
      omega
    subst hfeq
    rw [hb, List.cons_append, utf8DecodeLoop]
    rw [← List.cons_append, ← hb, utf8DecodeOne_encodeChar]
    rw [Option.some_bind]
    have hrec : utf8DecodeLoop f (r.flatMap utf8EncodeChar) = some r := by
      apply ih
      omega
    rw [hrec]
    simp [Char.ofNat_toNat]

theorem utf8DecodeChars_utf8Encode (cs : List Char) :
    utf8DecodeChars (cs.flatMap utf8EncodeChar) = some cs :=
  utf8DecodeLoop_flatMap cs _ (le_refl _)

theorem utf8Decode_utf8Encode (s : String) : utf8Decode (utf8Encode s) = some s := by
  unfold utf8Decode utf8Encode
  rw [utf8DecodeChars_utf8Encode]
  rfl

theorem utf8EncodeChar_getLast_ne_zero (c : Char) (hc : c.toNat ≠ 0) :
    ∀ b, (utf8EncodeChar c).getLast? = some b → b ≠ 0 := by
  intro b hb
  unfold utf8EncodeChar at hb
  by_cases h1 : c.toNat < 0x80
  · rw [if_pos h1] at hb
    simp only [List.getLast?_singleton, Option.some.injEq] at hb
    omega
  · by_cases h2 : c.toNat < 0x800
    · rw [if_neg h1, if_pos h2] at hb
      simp only [List.getLast?] at hb
      simp only [List.getLast, Option.some.injEq] at hb
      omega
    · by_cases h3 : c.toNat < 0x10000
      · rw [if_neg h1, if_neg h2, if_pos h3] at hb
        simp only [List.getLast?] at hb
        simp only [List.getLast, Option.some.injEq] at hb
        omega
      · rw [if_neg h1, if_neg h2, if_neg h3] at hb
        simp only [List.getLast?] at hb
        simp only [List.getLast, Option.some.injEq] at hb
        omega

theorem utf8Encode_getLast_ne_zero (s : String)
    (hs : ∀ c, s.data.getLast? = some c → c.toNat ≠ 0) :
    ∀ b, (utf8Encode s).getLast? = some b → b ≠ 0 := by
  unfold utf8Encode
  generalize s.data = cs at hs ⊢
  induction cs with
  | nil => simp
  | cons c r ih =>
    intro b hb
    rw [List.flatMap_cons] at hb
    cases hr : r with
    | nil =>
      subst hr
      simp only [List.flatMap_nil, List.append_nil] at hb
      have hc : c.toNat ≠ 0 := hs c (by simp)
      exact utf8EncodeChar_getLast_ne_zero c hc b hb
    | cons x t =>
      subst hr
      have hne : (x :: t).flatMap utf8EncodeChar ≠ [] := by
        simp only [List.flatMap_cons]
        intro hcontra
        exact utf8EncodeChar_ne_nil x (List.append_eq_nil.mp hcontra).1
      have hsome : ((x :: t).flatMap utf8EncodeChar).getLast?.isSome := by
        rw [Option.isSome_iff_ne_none, ne_eq, List.getLast?_eq_none_iff]
        exact hne
      rw [List.getLast?_append, Option.or_of_isSome hsome] at hb
      exact ih (fun d hd => hs d (by
        rw [List.getLast?_cons_cons]
        exact hd)) b hb

theorem rstripNul_append_zeros (xs : List Nat) (k : Nat)
    (hx : ∀ b, xs.getLast? = some b → b ≠ 0) :
    rstripNul (xs ++ List.replicate k 0) = xs := by
  unfold rstripNul
  rw [List.reverse_append, List.reverse_replicate]
  rw [List.dropWhile_append_of_pos (by
    intro a ha
    rw [List.mem_replicate] at ha
    simp [ha.2])]
  cases hxs : xs.reverse with
  | nil =>
    have : xs = [] := by simpa using congrArg List.reverse hxs
    simp [this]
  | cons h t =>
    have hhead : xs.getLast? = some h := by
      rw [List.getLast?_eq_head?_reverse, hxs]
      rfl
    have hne := hx h hhead
    rw [List.dropWhile_cons_of_neg (by simpa using hne)]
    rw [← hxs, List.reverse_reverse]

theorem pad32_length (s : String) : (pad32 s).length = 32 := by
  unfold pad32
  rw [List.length_append, List.length_replicate, List.length_take]
  omega

theorem decodeIdField_pad32 (s : String)
    (hlen : (utf8Encode s).length ≤ 32)
    (hnul : ∀ c, s.data.getLast? = some c → c.toNat ≠ 0) :
    decodeIdField (pad32 s) = some s := by
  unfold decodeIdField pad32
  rw [List.take_of_length_le hlen]
  rw [rstripNul_append_zeros _ _ (utf8Encode_getLast_ne_zero s hnul)]
  exact utf8Decode_utf8Encode s

theorem leSigned4_length (x : Int) : (leSigned4 x).length = 4 := by
  unfold leSigned4
  exact leBytes_length 4 _

set_option maxHeartbeats 1600000 in
/-- Claim C6: the packed index record is exactly 141 bytes
(`INDEX_RECORD_SIZE` sums the field widths 32/32/32/8/4/4/1/8/8/4/4/4 of
`<32s32s32sQIIBQQIii>` to 141), and for every record whose id strings fit
into 32 UTF-8 bytes with no trailing NUL, unpacking the packed bytes as
`load_index` does recovers exactly the fields that were written. -/
theorem packRecord_roundtrip (r : IndexRecordFields) (bs : List Nat)
    (hpack : packRecord r = some bs)
    (hcid : (utf8Encode r.chunk_id).length ≤ 32)
    (hcid0 : ∀ c, r.chunk_id.data.getLast? = some c → c.toNat ≠ 0)
    (huid : (utf8Encode r.doc_uid).length ≤ 32)
    (huid0 : ∀ c, r.doc_uid.data.getLast? = some c → c.toNat ≠ 0)
    (hdid : (utf8Encode r.doc_id).length ≤ 32)
    (hdid0 : ∀ c, r.doc_id.data.getLast? = some c → c.toNat ≠ 0) :
    INDEX_RECORD_SIZE = 141 ∧ bs.length = 141 ∧ unpackRecord bs = some r := by
  have hp : packable r := by
    by_contra hcontra
    rw [packRecord, if_neg hcontra] at hpack
    cases hpack
  rw [packRecord, if_pos hp, Option.some.injEq] at hpack
  simp only [List.append_assoc] at hpack
  obtain ⟨ho, hl, hc, hos, hoe, hci, hps1, hps2, hpe1, hpe2⟩ := hp
  have hGlen : (([if r.is_active then 1 else 0] : List Nat)).length = 1 := rfl
  have hblen : bs.length = 141 := by
    rw [← hpack]
    simp only [List.length_append, pad32_length, leBytes_length, leSigned4_length,
      List.length_singleton]
  refine ⟨rfl, hblen, ?_⟩
  -- successive tails of the record at each field boundary
  have e32 : bs.drop 32 = pad32 r.doc_uid ++ (pad32 r.doc_id ++ (leBytes 8 r.store_offset ++
      (leBytes 4 r.length ++ (leBytes 4 r.checksum ++ ([if r.is_active then 1 else 0] ++
      (leBytes 8 r.offset_start ++ (leBytes 8 r.offset_end ++ (leBytes 4 r.chunk_index ++
      (leSigned4 r.page_start ++ leSigned4 r.page_end))))))))) := by
    rw [← hpack]
    exact List.drop_left' (pad32_length _)
  have e64 : bs.drop 64 = pad32 r.doc_id ++ (leBytes 8 r.store_offset ++
      (leBytes 4 r.length ++ (leBytes 4 r.checksum ++ ([if r.is_active then 1 else 0] ++
      (leBytes 8 r.offset_start ++ (leBytes 8 r.offset_end ++ (leBytes 4 r.chunk_index ++
      (leSigned4 r.page_start ++ leSigned4 r.page_end)))))))) := by
    rw [show (64 : Nat) = 32 + 32 from rfl, ← List.drop_drop, e32]
    exact List.drop_left' (pad32_length _)
  have e96 : bs.drop 96 = leBytes 8 r.store_offset ++
      (leBytes 4 r.length ++ (leBytes 4 r.checksum ++ ([if r.is_active then 1 else 0] ++
      (leBytes 8 r.offset_start ++ (leBytes 8 r.offset_end ++ (leBytes 4 r.chunk_index ++
      (leSigned4 r.page_start ++ leSigned4 r.page_end))))))) := by
    rw [show (96 : Nat) = 64 + 32 from rfl, ← List.drop_drop, e64]
    exact List.drop_left' (pad32_length _)
  have e104 : bs.drop 104 = leBytes 4 r.length ++ (leBytes 4 r.checksum ++
      ([if r.is_active then 1 else 0] ++ (leBytes 8 r.offset_start ++
      (leBytes 8 r.offset_end ++ (leBytes 4 r.chunk_index ++
      (leSigned4 r.page_start ++ leSigned4 r.page_end)))))) := by
    rw [show (104 : Nat) = 96 + 8 from rfl, ← List.drop_drop, e96]
    exact List.drop_left' (leBytes_length 8 _)
  have e108 : bs.drop 108 = leBytes 4 r.checksum ++ ([if r.is_active then 1 else 0] ++
      (leBytes 8 r.offset_start ++ (leBytes 8 r.offset_end ++ (leBytes 4 r.chunk_index ++
      (leSigned4 r.page_start ++ leSigned4 r.page_end))))) := by
    rw [show (108 : Nat) = 104 + 4 from rfl, ← List.drop_drop, e104]
    exact List.drop_left' (leBytes_length 4 _)
  have e112 : bs.drop 112 = [if r.is_active then 1 else 0] ++
      (leBytes 8 r.offset_start ++ (leBytes 8 r.offset_end ++ (leBytes 4 r.chunk_index ++
      (leSigned4 r.page_start ++ leSigned4 r.page_end)))) := by
    rw [show (112 : Nat) = 108 + 4 from rfl, ← List.drop_drop, e108]
    exact List.drop_left' (leBytes_length 4 _)
  have e113 : bs.drop 113 = leBytes 8 r.offset_start ++ (leBytes 8 r.offset_end ++
      (leBytes 4 r.chunk_index ++ (leSigned4 r.page_start ++ leSigned4 r.page_end))) := by
    rw [show (113 : Nat) = 112 + 1 from rfl, ← List.drop_drop, e112]
    exact List.drop_left' hGlen
  have e121 : bs.drop 121 = leBytes 8 r.offset_end ++
      (leBytes 4 r.chunk_index ++ (leSigned4 r.page_start ++ leSigned4 r.page_end)) := by
    rw [show (121 : Nat) = 113 + 8 from rfl, ← List.drop_drop, e113]
    exact List.drop_left' (leBytes_length 8 _)
  have e129 : bs.drop 129 = leBytes 4 r.chunk_index ++
      (leSigned4 r.page_start ++ leSigned4 r.page_end) := by
    rw [show (129 : Nat) = 121 + 8 from rfl, ← List.drop_drop, e121]
    exact List.drop_left' (leBytes_length 8 _)
  have e133 : bs.drop 133 = leSigned4 r.page_start ++ leSigned4 r.page_end := by
    rw [show (133 : Nat) = 129 + 4 from rfl, ← List.drop_drop, e129]
    exact List.drop_left' (leBytes_length 4 _)
  have e137 : bs.drop 137 = leSigned4 r.page_end := by
    rw [show (137 : Nat) = 133 + 4 from rfl, ← List.drop_drop, e133]
    exact List.drop_left' (leSigned4_length _)
  rw [unpackRecord, if_pos (by rw [hblen]; rfl)]
  have f1 : bs.take 32 = pad32 r.chunk_id := by
    rw [← hpack]
    exact List.take_left' (pad32_length _)
  have f2 : (bs.drop 32).take 32 = pad32 r.doc_uid := by
    rw [e32]
    exact List.take_left' (pad32_length _)
  have f3 : (bs.drop 64).take 32 = pad32 r.doc_id := by
    rw [e64]
    exact List.take_left' (pad32_length _)
  rw [f1, f2, f3, decodeIdField_pad32 _ hcid hcid0, decodeIdField_pad32 _ huid huid0,
    decodeIdField_pad32 _ hdid hdid0]
  have g1 : fromLE ((bs.drop 96).take 8) = r.store_offset := by
    rw [e96, List.take_left' (leBytes_length 8 _)]
    exact fromLE_leBytes 8 _ (by norm_num at ho ⊢; omega)
  have g2 : fromLE ((bs.drop 104).take 4) = r.length := by
    rw [e104, List.take_left' (leBytes_length 4 _)]
    exact fromLE_leBytes 4 _ (by norm_num at hl ⊢; omega)
  have g3 : fromLE ((bs.drop 108).take 4) = r.checksum := by
    rw [e108, List.take_left' (leBytes_length 4 _)]
    exact fromLE_leBytes 4 _ (by norm_num at hc ⊢; omega)
  have g4 : bs.getD 112 0 = if r.is_active then 1 else 0 := by
    rw [List.getD_eq_getElem?_getD, show (112 : Nat) = 112 + 0 from rfl,
      ← List.getElem?_drop, e112]
    cases r.is_active <;> rfl
  have g5 : fromLE ((bs.drop 113).take 8) = r.offset_start := by
    rw [e113, List.take_left' (leBytes_length 8 _)]
    exact fromLE_leBytes 8 _ (by norm_num at hos ⊢; omega)
  have g6 : fromLE ((bs.drop 121).take 8) = r.offset_end := by
    rw [e121, List.take_left' (leBytes_length 8 _)]
    exact fromLE_leBytes 8 _ (by norm_num at hoe ⊢; omega)
  have g7 : fromLE ((bs.drop 129).take 4) = r.chunk_index := by
    rw [e129, List.take_left' (leBytes_length 4 _)]
    exact fromLE_leBytes 4 _ (by norm_num at hci ⊢; omega)
  have g8 : fromLESigned4 ((bs.drop 133).take 4) = r.page_start := by
    rw [e133, List.take_left' (leSigned4_length _)]
    exact fromLESigned4_leSigned4 _ hps1 hps2
  have g9 : fromLESigned4 ((bs.drop 137).take 4) = r.page_end := by
    rw [e137, List.take_of_length_le (by rw [leSigned4_length])]
    exact fromLESigned4_leSigned4 _ hpe1 hpe2
  rw [g1, g2, g3, g4, g5, g6, g7, g8, g9]
  have hact : (decide ¬(if r.is_active then (1 : Nat) else 0) = 0) = r.is_active := by
    cases r.is_active <;> rfl
  simp only [hact]

/-- Witness for C6 at a concrete record: packing then unpacking a record
with 16-hex-character ids recovers it exactly, and the packed size is 141. -/
theorem packRecord_roundtrip_witness :
    INDEX_RECORD_SIZE = 141 ∧
    ((packRecord ⟨"aabbccdd00112233", "d0c0a0b011223344", "f0e0d0c055667788",
        10, 5, 7, true, 0, 5, 0, -1, 3⟩).getD []).length = 141 ∧
    unpackRecord ((packRecord ⟨"aabbccdd00112233", "d0c0a0b011223344", "f0e0d0c055667788",
        10, 5, 7, true, 0, 5, 0, -1, 3⟩).getD []) =
      some ⟨"aabbccdd00112233", "d0c0a0b011223344", "f0e0d0c055667788",
        10, 5, 7, true, 0, 5, 0, -1, 3⟩ :=
  packRecord_roundtrip
    ⟨"aabbccdd00112233", "d0c0a0b011223344", "f0e0d0c055667788",
      10, 5, 7, true, 0, 5, 0, -1, 3⟩
    _ (by decide) (by decide) (by decide) (by decide) (by decide)
    (by decide) (by decide)

/-! ### Write/read round-trip through the chunk store (claim C2) -/

theorem dictGet_dictSet_self {α : Type} (m : List (String × α)) (k : String) (v : α) :
    dictGet (dictSet m k v) k = some v := by
  induction m with
  | nil => simp [dictGet, dictSet, List.find?]
  | cons kv rest ih =>
    by_cases h : kv.1 = k
    · simp [dictGet, dictSet, h, List.find?]
    · simp only [dictSet, if_neg h, dictGet, List.find?]
      rw [decide_eq_false h]
      exact ih

/-- Claim C2: writing a chunk whose `compressed_data` is the zstd
compression of the chunk's UTF-8 text bytes (so that decompression returns
exactly those bytes) and whose `checksum` is the xxhash32 of those bytes
makes the subsequent `read_chunk` of that id return the written chunk with
byte-identical text; in particular the checksum-mismatch branch is not
taken. -/
theorem write_chunk_read_chunk (zstdD : List Nat → Option (List Nat))
    (xxh32 : List Nat → Nat) (st st' : StoreState) (chunk : Chunk)
    (compressed_data : List Nat) (checksum : Nat)
    (hw : write_chunk st chunk compressed_data checksum = some st')
    (hzd : zstdD compressed_data = some (utf8Encode chunk.text))
    (hck : checksum = xxh32 (utf8Encode chunk.text)) :
    read_chunk zstdD xxh32 st' chunk.chunk_id =
      .ok chunk ((dictGet st.doc_id_to_source_path chunk.doc_id).getD "") ∧
    read_chunk zstdD xxh32 st' chunk.chunk_id ≠ .checksumError := by
  unfold write_chunk at hw
  rw [Option.map_eq_some'] at hw
  obtain ⟨recBytes, -, hst'⟩ := hw
  have hread : read_chunk zstdD xxh32 st' chunk.chunk_id =
      .ok chunk ((dictGet st.doc_id_to_source_path chunk.doc_id).getD "") := by
    rw [← hst']
    unfold read_chunk
    rw [dictGet_dictSet_self]
    dsimp only
    rw [if_neg (by simp)]
    have hseg : ((st.binFile ++ compressed_data).drop st.binFile.length).take
        compressed_data.length = compressed_data := by
      rw [List.drop_left' rfl, List.take_of_length_le (le_refl _)]
    rw [hseg, hzd]
    dsimp only
    rw [utf8Decode_utf8Encode chunk.text]
    dsimp only
    rw [if_neg (by simp [hck])]
  exact ⟨hread, by rw [hread]; intro h; cases h⟩

/-- Witness for C2: an identity codec (decompression returns its input) and
a length checksum; writing the chunk text "hello" and reading it back
returns the chunk unchanged. -/
theorem write_chunk_read_chunk_witness :
    read_chunk some List.length
      ((write_chunk ⟨[], [], [], [], []⟩
        ⟨"cid0", "du0", "di0", "hello", 0, 5, 0, none, none⟩
        (utf8Encode "hello") (utf8Encode "hello").length).getD ⟨[], [], [], [], []⟩)
      "cid0" =
      .ok ⟨"cid0", "du0", "di0", "hello", 0, 5, 0, none, none⟩ "" :=
  (write_chunk_read_chunk some List.length ⟨[], [], [], [], []⟩
    ((write_chunk ⟨[], [], [], [], []⟩
        ⟨"cid0", "du0", "di0", "hello", 0, 5, 0, none, none⟩
        (utf8Encode "hello") (utf8Encode "hello").length).getD ⟨[], [], [], [], []⟩)
    ⟨"cid0", "du0", "di0", "hello", 0, 5, 0, none, none⟩
    (utf8Encode "hello") (utf8Encode "hello").length
    (by rfl) (by rfl) (by rfl)).1

set_option maxRecDepth 8000 in
/-- Claim C1 (divergence witness): store the chunk `"ca"` (text
`"foo bar"`), tombstone it, reload the index (last-record-wins); then
`read_chunk "ca"` correctly returns absent, but `process_query` — the
implementation behind `retrieve` — still includes `"ca"` in its results for
a matching query, because the hit list of the BM25 index is not filtered
against tombstones (identity decompressor, length checksum, corpus
position 0 scored 1). -/
theorem tombstoned_id_still_retrieved :
    (((write_chunk ⟨[], [], [], [], []⟩ ⟨"ca", "du", "di", "foo bar", 0, 7, 0, none, none⟩
        (utf8Encode "foo bar") 7).bind
      (fun s1 => (tombstone_chunk s1 "ca").bind (fun s2 => reloadedState s2 [])))).map
      (fun s3 =>
        (read_chunk some List.length s3 "ca",
         (process_query some List.length ⟨["ca"], false, [], fun _ => [1]⟩
            (some s3) "foo" 5).map (List.map RetrievalResult.chunk_id))) =
      some (.absent, some ["ca"]) := by
  have hpipe : ((write_chunk ⟨[], [], [], [], []⟩ ⟨"ca", "du", "di", "foo bar", 0, 7, 0, none, none⟩
        (utf8Encode "foo bar") 7).bind
      (fun s1 => (tombstone_chunk s1 "ca").bind (fun s2 => reloadedState s2 []))) =
      some (((write_chunk ⟨[], [], [], [], []⟩ ⟨"ca", "du", "di", "foo bar", 0, 7, 0, none, none⟩
        (utf8Encode "foo bar") 7).bind
      (fun s1 => (tombstone_chunk s1 "ca").bind (fun s2 => reloadedState s2 []))).getD
        ⟨[], [], [], [], []⟩) := by decide
  have hread : read_chunk some List.length
      (((write_chunk ⟨[], [], [], [], []⟩ ⟨"ca", "du", "di", "foo bar", 0, 7, 0, none, none⟩
        (utf8Encode "foo bar") 7).bind
      (fun s1 => (tombstone_chunk s1 "ca").bind (fun s2 => reloadedState s2 []))).getD
        ⟨[], [], [], [], []⟩) "ca" = .absent := by decide
  rw [hpipe, Option.map_some']
  rw [Option.some.injEq]
  refine Prod.ext hread ?_
  show (process_query _ _ _ _ _ _).map _ = _
  unfold process_query
  have htoks : tokenize_query false [] "foo" = ["foo"] := by decide
  have hsearch : bm25_search ⟨["ca"], false, [], fun _ => [1]⟩ "foo" 5 =
      [("ca", 1)] := by
    unfold bm25_search
    rw [show tokenize_query
        (⟨["ca"], false, [], fun _ => [1]⟩ : BM25Model).use_stopwords
        (⟨["ca"], false, [], fun _ => [1]⟩ : BM25Model).stopwords "foo" = ["foo"]
      from htoks]
    rw [if_neg (by decide)]
    dsimp only
    rw [show pySortScoresDesc [(1 : ℚ)] = [0] from by
      unfold pySortScoresDesc
      rw [show List.range ([(1 : ℚ)].length) = [0] from rfl,
        List.mergeSort_singleton]]
    decide
  dsimp only
  rw [hsearch, htoks]
  unfold buildResults
  dsimp only
  rw [hread]
  rfl

/-! ### Normalizer idempotence (claim C8) -/

theorem pyStrip_isInfixOf (l : List Char) : List.IsInfix (pyStrip l) l := by
  unfold pyStrip
  have h1 : List.IsSuffix (l.dropWhile pyIsSpace) l := List.dropWhile_suffix pyIsSpace
  have h2 : List.IsSuffix ((l.dropWhile pyIsSpace).reverse.dropWhile pyIsSpace)
      (l.dropWhile pyIsSpace).reverse := List.dropWhile_suffix pyIsSpace
  have h3 : List.IsPrefix (((l.dropWhile pyIsSpace).reverse.dropWhile pyIsSpace)).reverse
      (l.dropWhile pyIsSpace) := by
    rw [← List.reverse_suffix]
    simpa using h2
  exact h3.isInfix.trans h1.isInfix

theorem pyStrip_mem {l : List Char} {c : Char} (h : c ∈ pyStrip l) : c ∈ l :=
  (pyStrip_isInfixOf l).subset h

theorem dropWhile_idem (p : Char → Bool) (l : List Char) :
    (l.dropWhile p).dropWhile p = l.dropWhile p := by
  induction l with
  | nil => rfl
  | cons c r ih =>
    by_cases h : p c
    · rw [List.dropWhile_cons_of_pos h]
      exact ih
    · rw [List.dropWhile_cons_of_neg (by simpa using h),
        List.dropWhile_cons_of_neg (by simpa using h)]

theorem dropWhile_of_head_neg {p : Char → Bool} {l : List Char}
    (h : ∀ c, l.head? = some c → ¬ p c) : l.dropWhile p = l := by
  cases l with
  | nil => rfl
  | cons c r =>
    exact List.dropWhile_cons_of_neg (by simpa using h c rfl)

theorem pyStrip_idem (l : List Char) : pyStrip (pyStrip l) = pyStrip l := by
  have hfix : (pyStrip l).dropWhile pyIsSpace = pyStrip l := by
    apply dropWhile_of_head_neg
    intro c hc
    unfold pyStrip at hc
    have hpre : List.IsPrefix
        (((l.dropWhile pyIsSpace).reverse.dropWhile pyIsSpace)).reverse
        (l.dropWhile pyIsSpace) := by
      rw [← List.reverse_suffix]
      simpa using List.dropWhile_suffix (l := (l.dropWhile pyIsSpace).reverse) pyIsSpace
    obtain ⟨t, ht⟩ := hpre
    have hhead : (l.dropWhile pyIsSpace).head? = some c := by
      rw [← ht, List.head?_append, hc]
      rfl
    intro hp
    have := List.head?_dropWhile_not pyIsSpace l
    rw [hhead] at this
    simp [hp] at this
  show pyStrip ((l.dropWhile pyIsSpace).reverse.dropWhile pyIsSpace).reverse =
    pyStrip l
  unfold pyStrip
  rw [show ((l.dropWhile pyIsSpace).reverse.dropWhile pyIsSpace).reverse.dropWhile
        pyIsSpace = ((l.dropWhile pyIsSpace).reverse.dropWhile pyIsSpace).reverse
      from hfix]
  rw [List.reverse_reverse, dropWhile_idem]

theorem collapse_head_not_sptab (m : List Char) :
    ∀ c, (collapseSpaceTab (m.dropWhile isSpTab)).head? = some c → ¬ isSpTab c = true := by
  induction m with
  | nil =>
    intro c hc
    simp [collapseSpaceTab] at hc
  | cons d r ih =>
    by_cases hd : isSpTab d
    · rw [List.dropWhile_cons_of_pos hd]
      exact ih
    · rw [List.dropWhile_cons_of_neg (by simpa using hd)]
      intro c hc
      rw [show collapseSpaceTab (d :: r) = d :: collapseSpaceTab r from by
          rw [collapseSpaceTab]; rw [if_neg (by simpa using hd)]] at hc
      simp only [List.head?_cons, Option.some.injEq] at hc
      subst hc
      simpa using hd

theorem collapse_goodSpacing (x : List Char) : goodSpacing (collapseSpaceTab x) := by
  induction x using collapseSpaceTab.induct with
  | case1 =>
    exact ⟨by simp [collapseSpaceTab], by simp [collapseSpaceTab]⟩
  | case2 c rest h ih =>
    rw [show collapseSpaceTab (c :: rest) =
        ' ' :: collapseSpaceTab (rest.dropWhile isSpTab) from by
      rw [collapseSpaceTab, if_pos h]]
    obtain ⟨ihT, ihC⟩ := ih
    refine ⟨?_, ?_⟩
    · intro hmem
      rcases List.mem_cons.mp hmem with hmem | hmem
      · cases hmem
      · exact ihT hmem
    · rw [List.chain'_cons']
      refine ⟨?_, ihC⟩
      intro y hy
      have := collapse_head_not_sptab rest y hy
      rintro ⟨-, hy2⟩
      subst hy2
      simp [isSpTab] at this
  | case3 c rest h ih =>
    rw [show collapseSpaceTab (c :: rest) = c :: collapseSpaceTab rest from by
      rw [collapseSpaceTab, if_neg h]]
    obtain ⟨ihT, ihC⟩ := ih
    refine ⟨?_, ?_⟩
    · intro hmem
      rcases List.mem_cons.mp hmem with hmem | hmem
      · subst hmem
        simp [isSpTab] at h
      · exact ihT hmem
    · rw [List.chain'_cons']
      refine ⟨?_, ihC⟩
      intro y hy
      rintro ⟨hc1, -⟩
      subst hc1
      simp [isSpTab] at h

theorem goodSpacing_tail {c : Char} {l : List Char} (h : goodSpacing (c :: l)) :
    goodSpacing l :=
  ⟨fun hm => h.1 (List.mem_cons_of_mem c hm), (List.chain'_cons'.mp h.2).2⟩

theorem goodSpacing_collapse_eq (l : List Char) (h : goodSpacing l) :
    collapseSpaceTab l = l := by
  induction l with
  | nil => simp [collapseSpaceTab]
  | cons c rest ih =>
    obtain ⟨hT, hC⟩ := h
    by_cases hc : isSpTab c
    · have hcsp : c = ' ' := by
        rcases Bool.or_eq_true _ _ |>.mp hc with h1 | h1
        · exact decide_eq_true_eq.mp h1
        · exact absurd (List.mem_cons_self c rest)
            (by rw [decide_eq_true_eq.mp h1] at hT ⊢; exact hT)
      subst hcsp
      rw [collapseSpaceTab, if_pos hc]
      have hrest : rest.dropWhile isSpTab = rest := by
        apply dropWhile_of_head_neg
        intro d hd hpd
        rcases Bool.or_eq_true _ _ |>.mp hpd with h1 | h1
        · exact (List.chain'_cons'.mp hC).1 d hd ⟨rfl, decide_eq_true_eq.mp h1⟩
        · exact hT (by
            rw [decide_eq_true_eq.mp h1] at hd
            exact List.mem_cons_of_mem _ (List.mem_of_mem_head? hd))
      rw [hrest, ih (goodSpacing_tail ⟨hT, hC⟩)]
    · rw [collapseSpaceTab, if_neg hc, ih (goodSpacing_tail ⟨hT, hC⟩)]


theorem replaceCRLF_cons_general (c : Char) (rest : List Char)
    (h : ∀ r1, c = '\r' → rest = '\n' :: r1 → False) :
    replaceCRLF (c :: rest) = c :: replaceCRLF rest := by
  rw [replaceCRLF.eq_def]
  split
  case _ r1 heq =>
    injection heq with h1 h2
    exact (h r1 h1 h2).elim
  case _ y c2 rest2 hno heq =>
    injection heq with h1 h2
    subst h1
    subst h2
    rfl
  case _ heq => cases heq

theorem replaceCRLF_head_space (x : List Char) :
    (replaceCRLF x).head? = some ' ' → x.head? = some ' ' := by
  induction x using replaceCRLF.induct with
  | case1 rest ih =>
    intro h
    rw [replaceCRLF] at h
    simp at h
  | case2 c rest h ih =>
    intro hh
    rwa [replaceCRLF_cons_general c rest h] at hh
  | case3 =>
    intro h
    cases h

theorem replaceCRLF_mem (x : List Char) :
    ∀ c, c ∈ replaceCRLF x → c ∈ x ∨ c = '\n' := by
  induction x using replaceCRLF.induct with
  | case1 rest ih =>
    intro c hc
    rw [replaceCRLF] at hc
    rcases List.mem_cons.mp hc with h | h
    · exact Or.inr h
    · rcases ih c h with h | h
      · exact Or.inl (by simp [h])
      · exact Or.inr h
  | case2 c0 rest h ih =>
    intro c hc
    rw [replaceCRLF_cons_general c0 rest h] at hc
    rcases List.mem_cons.mp hc with hcc | hcc
    · exact Or.inl (by simp [hcc])
    · rcases ih c hcc with hcc | hcc
      · exact Or.inl (List.mem_cons_of_mem _ hcc)
      · exact Or.inr hcc
  | case3 =>
    intro c hc
    rw [replaceCRLF] at hc
    cases hc

theorem replaceCRLF_goodSpacing (x : List Char) (hg : goodSpacing x) :
    goodSpacing (replaceCRLF x) := by
  induction x using replaceCRLF.induct with
  | case1 rest ih =>
    rw [replaceCRLF]
    obtain ⟨ihT, ihC⟩ := ih (goodSpacing_tail (goodSpacing_tail hg))
    refine ⟨?_, ?_⟩
    · intro hmem
      rcases List.mem_cons.mp hmem with h | h
      · cases h
      · exact ihT h
    · rw [List.chain'_cons']
      refine ⟨fun y hy => ?_, ihC⟩
      rintro ⟨h1, -⟩
      cases h1
  | case2 c rest h ih =>
    rw [replaceCRLF_cons_general c rest h]
    obtain ⟨ihT, ihC⟩ := ih (goodSpacing_tail hg)
    refine ⟨?_, ?_⟩
    · intro hmem
      rcases List.mem_cons.mp hmem with hm | hm
      · exact hg.1 (by rw [hm]; exact List.mem_cons_self _ _)
      · exact ihT hm
    · rw [List.chain'_cons']
      refine ⟨?_, ihC⟩
      intro y hy
      rintro ⟨hc1, hy1⟩
      subst hc1
      subst hy1
      have hrest : rest.head? = some ' ' := replaceCRLF_head_space rest hy
      exact (List.chain'_cons'.mp hg.2).1 ' ' hrest ⟨rfl, rfl⟩
  | case3 =>
    exact ⟨by simp [replaceCRLF], by simp [replaceCRLF]⟩

theorem replaceCR_goodSpacing (x : List Char) (hg : goodSpacing x) :
    goodSpacing (replaceCR x) := by
  refine ⟨?_, ?_⟩
  · intro hmem
    unfold replaceCR at hmem
    obtain ⟨a, ha, hfa⟩ := List.mem_map.mp hmem
    by_cases har : a = '\r'
    · rw [if_pos har] at hfa
      cases hfa
    · rw [if_neg har] at hfa
      exact hg.1 (hfa ▸ ha)
  · unfold replaceCR
    rw [List.chain'_map]
    refine hg.2.imp ?_
    intro a b hab
    rintro ⟨ha, hb⟩
    apply hab
    constructor
    · by_cases har : a = '\r'
      · rw [if_pos har] at ha; cases ha
      · rwa [if_neg har] at ha
    · by_cases hbr : b = '\r'
      · rw [if_pos hbr] at hb; cases hb
      · rwa [if_neg hbr] at hb

theorem pyStrip_goodSpacing (x : List Char) (hg : goodSpacing x) :
    goodSpacing (pyStrip x) :=
  ⟨fun hm => hg.1 (pyStrip_mem hm), List.Chain'.infix hg.2 (pyStrip_isInfixOf x)⟩

theorem replaceCR_no_cr (x : List Char) : '\r' ∉ replaceCR x := by
  intro hmem
  unfold replaceCR at hmem
  obtain ⟨a, -, hfa⟩ := List.mem_map.mp hmem
  by_cases har : a = '\r'
  · rw [if_pos har] at hfa
    cases hfa
  · rw [if_neg har] at hfa
    exact har hfa

theorem noCR_replaceCRLF_eq (x : List Char) (h : '\r' ∉ x) : replaceCRLF x = x := by
  induction x using replaceCRLF.induct with
  | case1 rest ih =>
    exact absurd (List.mem_cons_self _ _) h
  | case2 c rest hc ih =>
    rw [replaceCRLF_cons_general c rest hc,
      ih (fun hm => h (List.mem_cons_of_mem _ hm))]
  | case3 => rfl

theorem noCR_replaceCR_eq (x : List Char) (h : '\r' ∉ x) : replaceCR x = x := by
  unfold replaceCR
  induction x with
  | nil => rfl
  | cons a r ih =>
    rw [List.map_cons, if_neg (fun har => h (by rw [← har]; exact List.mem_cons_self _ _)),
      ih (fun hm => h (List.mem_cons_of_mem _ hm))]

/-- Claim C8: the normalizer is idempotent. `unicodedata.normalize("NFKC", ·)`
is Python library code outside this repository, so it enters as a parameter;
the hypotheses record the standard Unicode facts the proof needs: NFKC is
itself idempotent, and NFKC-normality is preserved by collapsing space/tab
runs, by newline replacement and by stripping (each edit only removes
characters or replaces them by the starters space and LF, which compose with
nothing, and every substring of a normalized string is normalized). -/
theorem normalize_text_idempotent (nfkc : List Char → List Char)
    (h1 : ∀ x, nfkc (nfkc x) = nfkc x)
    (h2 : ∀ x, nfkc x = x → nfkc (collapseSpaceTab x) = collapseSpaceTab x)
    (h3 : ∀ x, nfkc x = x → nfkc (replaceCRLF x) = replaceCRLF x)
    (h4 : ∀ x, nfkc x = x → nfkc (replaceCR x) = replaceCR x)
    (h5 : ∀ x, nfkc x = x → nfkc (pyStrip x) = pyStrip x)
    (s : List Char) :
    normalize_text nfkc (normalize_text nfkc s) = normalize_text nfkc s := by
  have hy : nfkc (normalize_text nfkc s) = normalize_text nfkc s :=
    h5 _ (h4 _ (h3 _ (h2 _ (h1 s))))
  show pyStrip (replaceCR (replaceCRLF (collapseSpaceTab (nfkc (normalize_text nfkc s))))) =
    normalize_text nfkc s
  rw [hy]
  have hgood : goodSpacing (normalize_text nfkc s) :=
    pyStrip_goodSpacing _ (replaceCR_goodSpacing _ (replaceCRLF_goodSpacing _
      (collapse_goodSpacing (nfkc s))))
  rw [goodSpacing_collapse_eq _ hgood]
  have hnocr : '\r' ∉ normalize_text nfkc s := by
    intro hmem
    exact replaceCR_no_cr _ (pyStrip_mem hmem)
  rw [noCR_replaceCRLF_eq _ hnocr, noCR_replaceCR_eq _ hnocr]
  exact pyStrip_idem _

/-- Witness for C8: all hypotheses hold of the identity transform, and the
theorem then gives idempotence at a concrete messy input. -/
theorem normalize_text_idempotent_witness :
    normalize_text (fun x => x)
        (normalize_text (fun x => x) " a\t\tb \r\n c  d \r ".data) =
      normalize_text (fun x => x) " a\t\tb \r\n c  d \r ".data :=
  normalize_text_idempotent (fun x => x)
    (fun _ => rfl) (fun _ _ => rfl) (fun _ _ => rfl) (fun _ _ => rfl) (fun _ _ => rfl)
    " a\t\tb \r\n c  d \r ".data

/-! ### Word-count algebra for the chunker (claim C3) -/

theorem cwA_append (a b : List Char) (f : Bool) :
    cwA (a ++ b) f = cwA a f + cwA b (wEnd a f) := by
  induction a generalizing f with
  | nil => simp [cwA, wEnd]
  | cons c r ih =>
    by_cases hc : pyIsSpace c
    · simp only [List.cons_append, cwA, wEnd, hc, if_true, ite_true]
      exact ih false
    · simp only [List.cons_append, cwA, wEnd, hc, if_false, ite_false,
        Bool.false_eq_true, List.append_eq]
      rw [ih true]
      omega

theorem cwA_true_le_false (l : List Char) : cwA l true ≤ cwA l false := by
  cases l with
  | nil => exact le_refl _
  | cons c r =>
    by_cases hc : pyIsSpace c
    · simp [cwA, hc]
    · simp only [cwA, hc, ite_false, Bool.false_eq_true, if_false, if_true]
      omega

theorem cwA_false_le_true_succ (l : List Char) : cwA l false ≤ cwA l true + 1 := by
  cases l with
  | nil => simp [cwA]
  | cons c r =>
    by_cases hc : pyIsSpace c
    · simp [cwA, hc]
    · simp only [cwA, hc, ite_false, Bool.false_eq_true, if_false, if_true]
      omega

theorem wEnd_true_one_le (a : List Char) (h : wEnd a false = true) :
    1 ≤ cwA a false := by
  induction a with
  | nil => cases h
  | cons c r ih =>
    by_cases hc : pyIsSpace c
    · simp only [wEnd, hc, if_true, ite_true] at h
      simp only [cwA, hc, ite_true]
      exact ih h
    · simp [cwA, hc]

theorem cwA_append_le (a b : List Char) :
    cwA (a ++ b) false ≤ cwA a false + cwA b false := by
  rw [cwA_append]
  cases hw : wEnd a false
  · exact le_refl _
  · exact Nat.add_le_add (le_refl _) (cwA_true_le_false b)

theorem cwA_append_ge_right (a b : List Char) :
    cwA b false ≤ cwA (a ++ b) false := by
  rw [cwA_append]
  cases hw : wEnd a false
  · omega
  · have h1 := wEnd_true_one_le a hw
    have h2 := cwA_false_le_true_succ b
    omega

theorem cwA_all_space (s : List Char) (h : ∀ c ∈ s, pyIsSpace c) (f : Bool) :
    cwA s f = 0 := by
  induction s generalizing f with
  | nil => rfl
  | cons c r ih =>
    have hc := h c (List.mem_cons_self _ _)
    simp only [cwA, hc, ite_true]
    exact ih (fun d hd => h d (List.mem_cons_of_mem _ hd)) false

theorem cwA_all_nonspace_true (w : List Char) (h : ∀ c ∈ w, ¬ pyIsSpace c) :
    cwA w true = 0 := by
  induction w with
  | nil => rfl
  | cons c r ih =>
    have hc := h c (List.mem_cons_self _ _)
    rw [show cwA (c :: r) true = cwA r true from by simp [cwA, hc]]
    exact ih (fun d hd => h d (List.mem_cons_of_mem _ hd))

theorem cwA_all_nonspace_le_one (w : List Char) (h : ∀ c ∈ w, ¬ pyIsSpace c) :
    cwA w false ≤ 1 := by
  cases w with
  | nil => simp [cwA]
  | cons c r =>
    have hc := h c (List.mem_cons_self _ _)
    rw [show cwA (c :: r) false = 1 + cwA r true from by simp [cwA, hc]]
    have := cwA_all_nonspace_true r (fun d hd => h d (List.mem_cons_of_mem _ hd))
    omega

theorem cwA_dropSpacesL (l : List Char) : cwA (dropSpacesL l) false = cwA l false := by
  unfold dropSpacesL
  induction l with
  | nil => rfl
  | cons c r ih =>
    by_cases hc : pyIsSpace c
    · rw [List.dropWhile_cons_of_pos hc]
      rw [ih]
      simp [cwA, hc]
    · rw [List.dropWhile_cons_of_neg (by simpa using hc)]

theorem cwA_true_dropWordL (r : List Char) : cwA r true = cwA (dropWordL r) false := by
  unfold dropWordL
  induction r with
  | nil => rfl
  | cons d t ih =>
    by_cases hd : pyIsSpace d
    · rw [List.dropWhile_cons_of_neg (by simpa using hd)]
      simp [cwA, hd]
    · rw [List.dropWhile_cons_of_pos (by simpa using hd)]
      rw [← ih]
      simp [cwA, hd]

theorem cwA_pos_ne_nil {l : List Char} (h : 1 ≤ cwA l false) : l ≠ [] := by
  intro hl
  subst hl
  simp [cwA] at h

theorem cwA_step (l : List Char) (h : 1 ≤ cwA l false) :
    cwA l false = 1 + cwA (stepFwdL l) false := by
  unfold stepFwdL
  rw [← cwA_dropSpacesL l] at h ⊢
  cases hm : dropSpacesL l with
  | nil =>
    rw [hm] at h
    simp [cwA] at h
  | cons c r =>
    have hc : ¬ pyIsSpace c := by
      have := List.head?_dropWhile_not pyIsSpace l
      unfold dropSpacesL at hm
      rw [hm] at this
      simpa using this
    rw [show cwA (c :: r) false = 1 + cwA r true from by simp [cwA, hc]]
    rw [cwA_true_dropWordL]
    unfold dropWordL
    rw [List.dropWhile_cons_of_pos (by simpa using hc)]

theorem cwA_stepsL (n : Nat) (l : List Char) (h : n < cwA l false) :
    cwA l false = n + cwA (stepsL n l) false := by
  induction n generalizing l with
  | zero => simp [stepsL]
  | succ k ih =>
    have h1 : 1 ≤ cwA l false := by omega
    have hne : l ≠ [] := cwA_pos_ne_nil h1
    rw [stepsL, if_neg hne]
    have hstep := cwA_step l h1
    have hk : k < cwA (stepFwdL l) false := by omega
    have := ih (stepFwdL l) hk
    omega

theorem stepsL_consumed (k : Nat) (l : List Char) :
    ∃ c, l = c ++ stepsL k l ∧ cwA c.reverse false ≤ k := by
  induction k generalizing l with
  | zero => exact ⟨[], by simp [stepsL], by simp [cwA]⟩
  | succ n ih =>
    by_cases hl : l = []
    · subst hl
      exact ⟨[], by simp [stepsL], by simp [cwA]⟩
    · rw [stepsL, if_neg hl]
      obtain ⟨c, hc1, hc2⟩ := ih (stepFwdL l)
      have hsplit : l = (l.takeWhile pyIsSpace ++
          (dropSpacesL l).takeWhile (fun c => ! pyIsSpace c)) ++ stepFwdL l := by
        unfold stepFwdL dropWordL
        rw [List.append_assoc, List.takeWhile_append_dropWhile]
        unfold dropSpacesL
        rw [List.takeWhile_append_dropWhile]
      refine ⟨(l.takeWhile pyIsSpace ++
          (dropSpacesL l).takeWhile (fun c => ! pyIsSpace c)) ++ c, ?_, ?_⟩
      · rw [List.append_assoc, ← hc1]
        exact hsplit
      · rw [List.reverse_append]
        refine le_trans (cwA_append_le _ _) ?_
        have hc3 : cwA (l.takeWhile pyIsSpace ++
            (dropSpacesL l).takeWhile (fun c => ! pyIsSpace c)).reverse false ≤ 1 := by
          rw [List.reverse_append]
          refine le_trans (cwA_append_le _ _) ?_
          have hw : cwA ((dropSpacesL l).takeWhile (fun c => ! pyIsSpace c)).reverse
              false ≤ 1 := by
            apply cwA_all_nonspace_le_one
            intro d hd
            have := List.mem_takeWhile_imp (List.mem_reverse.mp hd)
            simpa using this
          have hs : cwA (l.takeWhile pyIsSpace).reverse false = 0 := by
            apply cwA_all_space
            intro d hd
            exact List.mem_takeWhile_imp (List.mem_reverse.mp hd)
          omega
        omega

/-! ### Bridges between index-based skips and list operations (claim C3) -/

theorem skipSpacesFwd_ge (t : List Char) (pos : Nat) : pos ≤ skipSpacesFwd t pos := by
  rw [skipSpacesFwd]
  split
  · split
    · have := skipSpacesFwd_ge t (pos + 1)
      omega
    · exact le_refl _
  · exact le_refl _
termination_by t.length - pos

theorem skipSpacesFwd_le (t : List Char) (pos : Nat) (h : pos ≤ t.length) :
    skipSpacesFwd t pos ≤ t.length := by
  rw [skipSpacesFwd]
  split
  · split
    · exact skipSpacesFwd_le t (pos + 1) (by omega)
    · exact h
  · exact h
termination_by t.length - pos

theorem skipSpacesFwd_drop (t : List Char) (pos : Nat) :
    t.drop (skipSpacesFwd t pos) = dropSpacesL (t.drop pos) := by
  rw [skipSpacesFwd]
  split
  case isTrue hp =>
    have hdrop : t.drop pos = t[pos] :: t.drop (pos + 1) :=
      List.drop_eq_getElem_cons hp
    have hgd : t.getD pos 'x' = t[pos] := List.getD_eq_getElem t 'x' hp
    split
    case isTrue hsp =>
      rw [skipSpacesFwd_drop t (pos + 1), hdrop]
      unfold dropSpacesL
      rw [List.dropWhile_cons_of_pos (by rwa [hgd] at hsp)]
    case isFalse hsp =>
      rw [hdrop]
      unfold dropSpacesL
      rw [List.dropWhile_cons_of_neg (by
        rw [hgd] at hsp
        simpa using hsp)]
  case isFalse hp =>
    rw [List.drop_eq_nil_of_le (by omega)]
    rfl
termination_by t.length - pos

theorem skipWordFwd_ge (t : List Char) (pos : Nat) : pos ≤ skipWordFwd t pos := by
  rw [skipWordFwd]
  split
  · split
    · have := skipWordFwd_ge t (pos + 1)
      omega
    · exact le_refl _
  · exact le_refl _
termination_by t.length - pos

theorem skipWordFwd_le (t : List Char) (pos : Nat) (h : pos ≤ t.length) :
    skipWordFwd t pos ≤ t.length := by
  rw [skipWordFwd]
  split
  · split
    · exact skipWordFwd_le t (pos + 1) (by omega)
    · exact h
  · exact h
termination_by t.length - pos

theorem skipWordFwd_drop (t : List Char) (pos : Nat) :
    t.drop (skipWordFwd t pos) = dropWordL (t.drop pos) := by
  rw [skipWordFwd]
  split
  case isTrue hp =>
    have hdrop : t.drop pos = t[pos] :: t.drop (pos + 1) :=
      List.drop_eq_getElem_cons hp
    have hgd : t.getD pos 'x' = t[pos] := List.getD_eq_getElem t 'x' hp
    split
    case isTrue hsp =>
      rw [skipWordFwd_drop t (pos + 1), hdrop]
      unfold dropWordL
      rw [List.dropWhile_cons_of_pos (by
        rw [hgd] at hsp
        simpa using hsp)]
    case isFalse hsp =>
      rw [hdrop]
      unfold dropWordL
      rw [List.dropWhile_cons_of_neg (by
        rw [hgd] at hsp
        simpa using hsp)]
  case isFalse hp =>
    rw [List.drop_eq_nil_of_le (by omega)]
    rfl
termination_by t.length - pos

theorem advanceWords_ge (t : List Char) (pos n : Nat) : pos ≤ advanceWords t pos n := by
  induction n generalizing pos with
  | zero => exact le_refl _
  | succ k ih =>
    rw [advanceWords]
    split
    · exact le_trans (le_trans (skipSpacesFwd_ge t pos)
        (skipWordFwd_ge t (skipSpacesFwd t pos))) (ih _)
    · exact le_refl _

theorem advanceWords_le (t : List Char) (pos n : Nat) (h : pos ≤ t.length) :
    advanceWords t pos n ≤ t.length := by
  induction n generalizing pos with
  | zero => exact h
  | succ k ih =>
    rw [advanceWords]
    split
    · exact ih _ (skipWordFwd_le t _ (skipSpacesFwd_le t pos h))
    · exact h

theorem advanceWords_drop (t : List Char) (pos n : Nat) (h : pos ≤ t.length) :
    t.drop (advanceWords t pos n) = stepsL n (t.drop pos) := by
  induction n generalizing pos with
  | zero => rfl
  | succ k ih =>
    rw [advanceWords, stepsL]
    by_cases hp : pos < t.length
    · rw [if_pos hp, if_neg (by
        intro hcontra
        have := congrArg List.length hcontra
        simp at this
        omega)]
      rw [ih _ (skipWordFwd_le t _ (skipSpacesFwd_le t pos h))]
      congr 1
      rw [skipWordFwd_drop, skipSpacesFwd_drop]
      rfl
    · rw [if_neg hp, if_pos (by
        have : pos = t.length := by omega
        rw [this, List.drop_length])]

theorem skipSpacesBack_le (t : List Char) (p : Nat) : skipSpacesBack t p ≤ p := by
  induction p with
  | zero => exact le_refl _
  | succ q ih =>
    rw [skipSpacesBack]
    split
    · omega
    · exact le_refl _

theorem skipWordBack_le (t : List Char) (p : Nat) : skipWordBack t p ≤ p := by
  induction p with
  | zero => exact le_refl _
  | succ q ih =>
    rw [skipWordBack]
    split
    · omega
    · exact le_refl _

theorem take_succ_reverse (t : List Char) (p : Nat) (hp : p < t.length) :
    (t.take (p + 1)).reverse = t[p] :: (t.take p).reverse := by
  rw [List.take_succ, List.getElem?_eq_getElem hp]
  simp

theorem skipSpacesBack_take (t : List Char) (p : Nat) (h : p ≤ t.length) :
    (t.take (skipSpacesBack t p)).reverse = dropSpacesL ((t.take p).reverse) := by
  induction p with
  | zero => rfl
  | succ q ih =>
    have hq : q < t.length := by omega
    have hgd : t.getD q 'x' = t[q] := List.getD_eq_getElem t 'x' hq
    rw [skipSpacesBack, take_succ_reverse t q hq]
    split
    case isTrue hsp =>
      unfold dropSpacesL
      rw [List.dropWhile_cons_of_pos (by rwa [hgd] at hsp)]
      exact ih (by omega)
    case isFalse hsp =>
      unfold dropSpacesL
      rw [List.dropWhile_cons_of_neg (by
        rw [hgd] at hsp
        simpa using hsp)]
      rw [take_succ_reverse t q hq]

theorem skipWordBack_take (t : List Char) (p : Nat) (h : p ≤ t.length) :
    (t.take (skipWordBack t p)).reverse = dropWordL ((t.take p).reverse) := by
  induction p with
  | zero => rfl
  | succ q ih =>
    have hq : q < t.length := by omega
    have hgd : t.getD q ' ' = t[q] := List.getD_eq_getElem t ' ' hq
    rw [skipWordBack, take_succ_reverse t q hq]
    split
    case isTrue hsp =>
      unfold dropWordL
      rw [List.dropWhile_cons_of_pos (by
        rw [hgd] at hsp
        simpa using hsp)]
      exact ih (by omega)
    case isFalse hsp =>
      unfold dropWordL
      rw [List.dropWhile_cons_of_neg (by
        rw [hgd] at hsp
        simpa using hsp)]
      rw [take_succ_reverse t q hq]

theorem backWords_le (t : List Char) (p k : Nat) : backWords t p k ≤ p := by
  induction k generalizing p with
  | zero => exact le_refl _
  | succ n ih =>
    rw [backWords]
    split
    · exact le_trans (ih _) (le_trans (skipWordBack_le t _) (skipSpacesBack_le t p))
    · exact le_refl _

theorem backWords_take (t : List Char) (p k : Nat) (h : p ≤ t.length) :
    (t.take (backWords t p k)).reverse = stepsL k ((t.take p).reverse) := by
  induction k generalizing p with
  | zero => rfl
  | succ n ih =>
    rw [backWords, stepsL]
    by_cases hp : 0 < p
    · rw [if_pos hp, if_neg (by
        intro hcontra
        have hlen : (t.take p).length = 0 := by
          rw [← List.length_reverse, hcontra]
          rfl
        rw [List.length_take] at hlen
        omega)]
      rw [ih _ (le_trans (skipWordBack_le t _) (le_trans (skipSpacesBack_le t p) h))]
      congr 1
      rw [skipWordBack_take t _ (le_trans (skipSpacesBack_le t p) h),
        skipSpacesBack_take t p h]
      rfl
    · have hp0 : p = 0 := by omega
      subst hp0
      rw [if_neg (by omega), if_pos (by simp)]

theorem findChunkEnd_le (t : List Char) (pos target : Nat) (h : pos ≤ t.length) :
    findChunkEnd t pos target ≤ t.length := by
  unfold findChunkEnd
  split
  · exact le_refl _
  · exact advanceWords_le t pos target h

theorem findChunkStart_progress (t : List Char) (pos csize ov : Nat)
    (hov : ov < csize) (hp : pos ≤ t.length)
    (hB : csize < pySplitLen (t.drop pos)) :
    pos < findChunkStart t (findChunkEnd t pos csize) ov := by
  have hB' : csize < cwA (t.drop pos) false := hB
  have hend : findChunkEnd t pos csize = advanceWords t pos csize := by
    unfold findChunkEnd
    rw [if_neg (by unfold pySplitLen; omega)]
  rw [hend]
  set e := advanceWords t pos csize with he
  have hpe : pos ≤ e := advanceWords_ge t pos csize
  have hel : e ≤ t.length := advanceWords_le t pos csize hp
  have hdropE : t.drop e = stepsL csize (t.drop pos) := advanceWords_drop t pos csize hp
  have hcount : cwA (t.drop pos) false = csize + cwA (t.drop e) false := by
    rw [hdropE]
    exact cwA_stepsL csize (t.drop pos) hB'
  have hsplit : t.drop pos = (t.take e).drop pos ++ t.drop e := by
    conv_lhs => rw [← List.take_append_drop e t]
    rw [List.drop_append_eq_append_drop]
    have h0 : pos - (t.take e).length = 0 := by
      rw [List.length_take]
      omega
    rw [h0, List.drop_zero]
  have hslice : csize ≤ cwA ((t.take e).drop pos) false := by
    have h1 : cwA (t.drop pos) false ≤
        cwA ((t.take e).drop pos) false + cwA (t.drop e) false := by
      conv_lhs => rw [hsplit]
      exact cwA_append_le _ _
    omega
  have htakeE : ov < cwA (t.take e) false := by
    have h2 : cwA ((t.take e).drop pos) false ≤ cwA (t.take e) false := by
      conv_rhs => rw [← List.take_append_drop pos (t.take e)]
      exact cwA_append_ge_right _ _
    omega
  unfold findChunkStart
  rw [if_neg (by unfold pySplitLen; omega)]
  by_contra hle
  push_neg at hle
  set b := backWords t e ov with hbdef
  have hble : b ≤ e := backWords_le t e ov
  have hbt : (t.take b).reverse = stepsL ov ((t.take e).reverse) :=
    backWords_take t e ov hel
  obtain ⟨c, hc1, hc2⟩ := stepsL_consumed ov ((t.take e).reverse)
  rw [← hbt] at hc1
  have heq : t.take e = t.take b ++ c.reverse := by
    have h3 := congrArg List.reverse hc1
    simpa using h3
  have hdropb : (t.take e).drop b = c.reverse := by
    rw [heq]
    exact List.drop_left' (by rw [List.length_take]; omega)
  have hmono : cwA ((t.take e).drop pos) false ≤ cwA ((t.take e).drop b) false := by
    have hdd : ((t.take e).drop b).drop (pos - b) = (t.take e).drop pos := by
      rw [List.drop_drop]
      congr 1
      omega
    conv_lhs => rw [← hdd]
    conv_rhs => rw [← List.take_append_drop (pos - b) ((t.take e).drop b)]
    exact cwA_append_ge_right _ _
  have hcw : cwA ((t.take e).drop b) false ≤ ov := by
    rw [hdropb]
    exact hc2
  omega

theorem chunkLoop_spec (doc_uid : String) (t : List Char) (csize ov : Nat)
    (hov : ov < csize) (fuel : Nat) :
    ∀ pos cidx, pos ≤ t.length → t.length - pos < fuel →
      ∃ l, chunkLoop doc_uid t csize ov fuel pos cidx = some l ∧
        (∀ c ∈ l, pos ≤ c.offset_start) ∧
        l.Pairwise (fun a b => a.offset_start < b.offset_start) := by
  induction fuel with
  | zero =>
    intro pos cidx hp hf
    omega
  | succ f ih =>
    intro pos cidx hp hf
    rw [chunkLoop]
    by_cases hpl : pos < t.length
    · rw [if_pos hpl]
      dsimp only
      by_cases hep : findChunkEnd t pos csize ≤ pos
      · rw [if_pos hep]
        exact ⟨[], rfl, by simp, by simp⟩
      · rw [if_neg hep]
        by_cases hct : (t.take (findChunkEnd t pos csize)).drop pos = []
        · rw [if_pos hct]
          exact ⟨[], rfl, by simp, by simp⟩
        · rw [if_neg hct]
          by_cases hle : t.length ≤ findChunkEnd t pos csize
          · rw [if_pos hle]
            refine ⟨[_], rfl, ?_, ?_⟩
            · intro c hc
              rw [List.mem_singleton] at hc
              subst hc
              exact le_refl _
            · simp
          · rw [if_neg hle]
            have hB : csize < pySplitLen (t.drop pos) := by
              by_contra hA
              push_neg at hA
              have hEq : findChunkEnd t pos csize = t.length := by
                unfold findChunkEnd
                rw [if_pos hA]
              omega
            have hprog : pos < findChunkStart t (findChunkEnd t pos csize) ov :=
              findChunkStart_progress t pos csize ov hov hp hB
            have hnle : findChunkStart t (findChunkEnd t pos csize) ov ≤ t.length := by
              unfold findChunkStart
              split
              · omega
              · exact le_trans (backWords_le t _ ov) (findChunkEnd_le t pos csize hp)
            obtain ⟨l', hl1, hl2, hl3⟩ :=
              ih (findChunkStart t (findChunkEnd t pos csize) ov) (cidx + 1) hnle
                (by omega)
            rw [hl1, Option.map_some']
            refine ⟨_, rfl, ?_, ?_⟩
            · intro c hc
              rcases List.mem_cons.mp hc with h | h
              · subst h
                exact le_refl _
              · exact le_trans (le_of_lt hprog) (hl2 c h)
            · rw [List.pairwise_cons]
              refine ⟨?_, hl3⟩
              intro c hc
              exact lt_of_lt_of_le hprog (hl2 c hc)
    · rw [if_neg hpl]
      exact ⟨[], rfl, by simp, by simp⟩

/-- C3: for every document text and every configuration with a positive
`chunk_size` and `chunk_overlap` strictly below it, `chunk_document`
terminates (returns `some` list: the loop's fuel, one unit per iteration, is
never exhausted, the no-progress guard breaking the loop otherwise), and the
start offsets of successive emitted chunks strictly increase. -/
theorem chunk_document_terminates_progress (doc_uid : String) (t : List Char)
    (csize ov : Nat) (_hcs : 0 < csize) (hov : ov < csize) :
    ∃ l, chunk_document doc_uid t csize ov = some l ∧
      l.Pairwise (fun a b => a.offset_start < b.offset_start) := by
  unfold chunk_document
  split
  · exact ⟨[], rfl, by simp⟩
  · obtain ⟨l, h1, _, h3⟩ :=
      chunkLoop_spec doc_uid t csize ov hov (t.length + 1) 0 0 (Nat.zero_le _)
        (by omega)
    exact ⟨l, h1, h3⟩

/-- Witness: the termination and progress theorem at a concrete document and
configuration (chunk size 2, overlap 1). -/
theorem chunk_document_terminates_progress_witness :
    0 < 2 ∧ 1 < 2 ∧
    ∃ l, chunk_document "d" ['a', ' ', 'b', ' ', 'c'] 2 1 = some l ∧
      l.Pairwise (fun a b => a.offset_start < b.offset_start) :=
  ⟨by decide, by decide,
    chunk_document_terminates_progress "d" ['a', ' ', 'b', ' ', 'c'] 2 1
      (by decide) (by decide)⟩
